import Mathlib

/-!
Verification of the workflow execution engine of the dashboard backend
(pipeline executor, failure retry/escalate routes, heartbeat monitor and
agent selection).  Python sources are shallowly embedded: dictionaries
become association lists, JSON-ish values become the inductive type Val,
and the side-effecting executor loop becomes an explicit state-passing
function parameterised by an oracle for the outcome of each node.
-/

set_option maxRecDepth 2000

/- JSON-like values flowing through the execution context.  Mirrors the
Python values stored in the context dict of the pipeline executor:
strings, booleans, None and string-keyed dicts.  Fields of an object are
a mutually inductive list so that recursion over values stays structural. -/
mutual
inductive Val where
  | vStr (s : String) : Val
  | vBool (b : Bool) : Val
  | vNull : Val
  | vObj (fields : ValFields) : Val
deriving DecidableEq

inductive ValFields where
  | nil : ValFields
  | cons (key : String) (value : Val) (rest : ValFields) : ValFields
deriving DecidableEq
end

/-- Lookup of a key in an object, first match wins (Python dict lookup on
dicts built without duplicate keys). -/
def ValFields.get : ValFields → String → Option Val
  | .nil, _ => none
  | .cons k v rest, key => if k == key then some v else rest.get key

/-- Membership test mirroring the Python expression (key in dict). -/
def ValFields.hasKey (fs : ValFields) (key : String) : Bool :=
  (fs.get key).isSome

/-- The left brace character, kept out of string literals. -/
def lbrace : Char := Char.ofNat 123

/-- The right brace character, kept out of string literals. -/
def rbrace : Char := Char.ofNat 125

/- Python json.dumps on our value type (separators and quoting of the
default configuration; string escaping is not modelled because no key or
value under study contains characters needing escapes). -/
mutual
def jsonDumps : Val → String
  | .vStr s => "\"" ++ s ++ "\""
  | .vBool b => if b then "true" else "false"
  | .vNull => "null"
  | .vObj fs => String.mk [lbrace] ++ jsonDumpsFields fs ++ String.mk [rbrace]

def jsonDumpsFields : ValFields → String
  | .nil => ""
  | .cons k v .nil => "\"" ++ k ++ "\": " ++ jsonDumps v
  | .cons k v (.cons k2 v2 rest) =>
      "\"" ++ k ++ "\": " ++ jsonDumps v ++ ", " ++
        jsonDumpsFields (.cons k2 v2 rest)
end

/- Python str() on our value type (dict repr uses single quotes). -/
mutual
def pyStr : Val → String
  | .vStr s => s
  | .vBool b => if b then "True" else "False"
  | .vNull => "None"
  | .vObj fs => String.mk [lbrace] ++ pyStrFields fs ++ String.mk [rbrace]

def pyStrFields : ValFields → String
  | .nil => ""
  | .cons k v .nil => "\x27" ++ k ++ "\x27: " ++ pyReprVal v
  | .cons k v (.cons k2 v2 rest) =>
      "\x27" ++ k ++ "\x27: " ++ pyReprVal v ++ ", " ++
        pyStrFields (.cons k2 v2 rest)

def pyReprVal : Val → String
  | .vStr s => "\x27" ++ s ++ "\x27"
  | .vBool b => if b then "True" else "False"
  | .vNull => "None"
  | .vObj fs => String.mk [lbrace] ++ pyStrFields fs ++ String.mk [rbrace]
end

/-- The execution context: a string-keyed dict of values. -/
abbrev Context := List (String × Val)

/-- First-match lookup in the context. -/
def ctxGet (ctx : Context) (key : String) : Option Val :=
  (ctx.find? (fun p => p.1 == key)).map (fun p => p.2)

/-- Membership in the context (Python: name in context). -/
def ctxHas (ctx : Context) (key : String) : Bool :=
  (ctxGet ctx key).isSome

/-- Python regex word character, ASCII fragment (the identifiers appearing
in templates are ASCII). -/
def isWordChar (c : Char) : Bool := c.isAlphanum || c == '_'

/-- Python str.split(sep, 1) for the dot separator: the part before the
first dot and the part after it.  Returns none when the string contains
no dot, mirroring the (dot in var_name) guard of the source. -/
def splitOnFirstDot (s : String) : Option (String × String) :=
  let cs := s.data
  let before := cs.takeWhile (fun c => !(c == '.'))
  if before.length == cs.length then none
  else some (String.mk before, String.mk (cs.drop (before.length + 1)))

/-- The replace_var closure of PipelineExecutor._substitute_variables:
resolution of one placeholder name against the context. -/
def replaceVar (ctx : Context) (varName : String) : String :=
  match ctxGet ctx varName with
  | some (Val.vObj fields) =>
      match fields.get "response" with
      | some r => pyStr r
      | none =>
          match fields.get "data" with
          | some (Val.vObj dfs) => jsonDumps (Val.vObj dfs)
          | some d => pyStr d
          | none => jsonDumps (Val.vObj fields)
  | some v => pyStr v
  | none =>
      let dotted : Option String :=
        match splitOnFirstDot varName with
        | some (nodeId, outputName) =>
            match ctxGet ctx nodeId with
            | some (Val.vObj nodeOutput) => (nodeOutput.get outputName).map pyStr
            | _ => none
        | none => none
      match dotted with
      | some s => s
      | none =>
          match ctxGet ctx "input" with
          | some v => pyStr v
          | none => String.mk (lbrace :: lbrace :: varName.data ++ rbrace :: rbrace :: [])

/-- Matcher for one occurrence of the pattern of _substitute_variables
(two left braces, a word, optionally a dot and a second word, two right
braces) at the head of the character list.  Returns the matched name and
the remainder.  Maximal munch agrees with the regex engine here because a
shortened word group would leave a word character where the pattern then
requires a dot or brace. -/
def tryMatch (cs : List Char) : Option (String × List Char) :=
  match cs with
  | c1 :: c2 :: rest =>
      if c1 = lbrace && c2 = lbrace then
        let w1 := rest.takeWhile isWordChar
        let r1 := rest.drop w1.length
        if w1.isEmpty then none
        else
          match r1 with
          | d1 :: d2 :: r2 =>
              if d1 = rbrace && d2 = rbrace then some (String.mk w1, r2)
              else if d1 = '.' then
                let w2 := (d2 :: r2).takeWhile isWordChar
                let r3 := (d2 :: r2).drop w2.length
                if w2.isEmpty then none
                else
                  match r3 with
                  | e1 :: e2 :: r4 =>
                      if e1 = rbrace && e2 = rbrace then
                        some (String.mk (w1 ++ '.' :: w2), r4)
                      else none
                  | _ => none
              else none
          | _ => none
      else none
  | _ => none

/-- The character-level scanner of re.sub for _substitute_variables: scan
left to right, replace each match and continue after the replacement text
(re.sub does not rescan replacements).  Fuel-based so that the kernel can
evaluate it; fuel equal to the length of the input is enough by
tryMatch_sublen, and every theorem below holds for the chosen fuel. -/
def substFuel (ctx : Context) : Nat → List Char → List Char
  | 0, cs => cs
  | fuel + 1, cs =>
      match tryMatch cs with
      | some (name, rest2) => (replaceVar ctx name).data ++ substFuel ctx fuel rest2
      | none =>
          match cs with
          | [] => []
          | c :: rest => c :: substFuel ctx fuel rest

/-- PipelineExecutor._substitute_variables.  The empty-text early return
of the source coincides with the scanner on empty input. -/
def substituteVariables (text : String) (ctx : Context) : String :=
  String.mk (substFuel ctx text.data.length text.data)

/-- True when some suffix of the text matches the placeholder pattern,
that is, when re.sub would replace something. -/
def hasPlaceholder (text : String) : Bool :=
  text.data.tails.any (fun t => (tryMatch t).isSome)

/-- Resolution of a single placeholder as worded by the specification:
(a) a direct context key, preferring the response field of a structured
result, else its data field (serialized when structured), else the whole
value serialized; (b) a dotted nodeId.outputName lookup into a prior
structured result; (c) the context input value; (d) the placeholder left
verbatim.  Written from the specification text, to be compared with
replaceVar, which is written from the source. -/
def specDirectValue : Val → String
  | Val.vObj fields =>
      if fields.hasKey "response" then pyStr ((fields.get "response").getD Val.vNull)
      else if fields.hasKey "data" then
        match (fields.get "data").getD Val.vNull with
        | Val.vObj dfs => jsonDumps (Val.vObj dfs)
        | d => pyStr d
      else jsonDumps (Val.vObj fields)
  | v => pyStr v

/-- Fallback (c)/(d) of the specification wording: the context input
value when present, else the verbatim placeholder text. -/
def specInputFallback (ctx : Context) (name : String) : String :=
  if ctxHas ctx "input" then pyStr ((ctxGet ctx "input").getD Val.vNull)
  else String.mk (lbrace :: lbrace :: name.data ++ rbrace :: rbrace :: [])

/-- Placeholder resolution as the specification words it, cases (a)-(d)
in order. -/
def specResolve (ctx : Context) (name : String) : String :=
  if ctxHas ctx name then specDirectValue ((ctxGet ctx name).getD Val.vNull)
  else
    match splitOnFirstDot name with
    | some (nodeId, outputName) =>
        match ctxGet ctx nodeId with
        | some (Val.vObj nodeOutput) =>
            if nodeOutput.hasKey outputName then
              pyStr ((nodeOutput.get outputName).getD Val.vNull)
            else specInputFallback ctx name
        | _ => specInputFallback ctx name
    | none => specInputFallback ctx name

/-- A workflow node as consumed by the executor: its id, its type string
and the optional label of its data dict. -/
structure NodeJ where
  id : String
  type : String
  label : Option String
deriving DecidableEq

/-- A workflow edge: source and target node ids. -/
structure EdgeJ where
  source : String
  target : String
deriving DecidableEq

/-- The node ids of the graph (the key set of the adjacency dict built by
_get_execution_order). -/
def nodeIds (nodes : List NodeJ) : List String := nodes.map (fun n => n.id)

/-- The edges retained by _get_execution_order: both endpoints must be
known node ids. -/
def validEdges (nodes : List NodeJ) (edges : List EdgeJ) : List EdgeJ :=
  edges.filter (fun e =>
    (nodeIds nodes).contains e.source && (nodeIds nodes).contains e.target)

/-- The adjacency list of a node: targets of its retained out-edges in
edge order, exactly as the Python loop appends them. -/
def adjOf (nodes : List NodeJ) (edges : List EdgeJ) (u : String) : List String :=
  (((validEdges nodes edges).filter (fun e => e.source == u)).map (fun e => e.target))

/-- The initial in-degree of a node: number of retained edges into it.
Int-valued because the Python counter can be driven below zero. -/
def inDegree (nodes : List NodeJ) (edges : List EdgeJ) (v : String) : Int :=
  (((validEdges nodes edges).filter (fun e => e.target == v)).length : Int)

/-- The seed queue of _get_execution_order: iterate the nodes, inserting
a workflowStart node at the front and appending any other node of
in-degree zero at the back. -/
def startNodes (nodes : List NodeJ) (edges : List EdgeJ) : List String :=
  nodes.foldl (fun acc n =>
    if n.type == "workflowStart" then n.id :: acc
    else if inDegree nodes edges n.id == 0 then acc ++ [n.id] else acc) []

/-- One step of the neighbor-processing loop of _get_execution_order:
decrement the neighbor's in-degree and record it when the counter hits
exactly zero. -/
def pnStep (acc : (String → Int) × List String) (nb : String) :
    (String → Int) × List String :=
  let d := acc.1
  let nv := d nb - 1
  let d2 : String → Int := fun x => if x == nb then nv else d x
  if nv == 0 then (d2, acc.2 ++ [nb]) else (d2, acc.2)

/-- The neighbor-processing loop of _get_execution_order: decrement each
neighbor's in-degree and collect, in order, the neighbors whose counter
hits exactly zero. -/
def processNeighbors (nbrs : List String) (indeg : String → Int) :
    (String → Int) × List String :=
  nbrs.foldl pnStep (indeg, [])

/-- The BFS loop of _get_execution_order.  The Python code keeps a
visited set next to the order list, but the two always contain exactly
the same ids (they are extended together), so the embedding tests
membership in the order list.  Fuel-based so the kernel can evaluate it;
the fuel chosen in getExecutionOrder dominates the loop's decreasing
measure, so the fuel-exhaustion branch is never taken. -/
def kahnLoop (adj : String → List String) :
    Nat → List String → List String → (String → Int) → List String
  | 0, _, order, _ => order
  | _ + 1, [], order, _ => order
  | fuel + 1, v :: rest, order, indeg =>
      if order.contains v then kahnLoop adj fuel rest order indeg
      else
        let pn := processNeighbors (adj v) indeg
        kahnLoop adj fuel (rest ++ pn.2) (order ++ [v]) pn.1

/-- PipelineExecutor._get_execution_order: Kahn-style BFS seeded with
workflowStart nodes first, then zero in-degree nodes. -/
def getExecutionOrder (nodes : List NodeJ) (edges : List EdgeJ) : List String :=
  let start := startNodes nodes edges
  kahnLoop (adjOf nodes edges) (start.length + edges.length + 1) start []
    (inDegree nodes edges)

/-- Failure status values of models.FailureStatus. -/
inductive FStatus where
  | pending | running | completed | failed | escalated
deriving DecidableEq

/-- Task status values of models.TaskStatus. -/
inductive TStatus where
  | pending | assigned | running | completed | failed | skipped
deriving DecidableEq

/-- The fields of a TaskExecution that the run model tracks.  The uuid,
timestamps and snapshot fields are environment-dependent output and are
not needed by any claim. -/
structure TaskExec where
  node_id : String
  node_type : String
  node_label : String
  status : TStatus
  error : Option String
deriving DecidableEq

/-- PipelineState as mutated by _execute_pipeline. -/
structure PState where
  status : FStatus
  execution_order : List String
  current_index : Nat
  node_outputs : List (String × Val)
  tasks : List (String × TaskExec)
deriving DecidableEq

/-- The failure fields mutated during a run. -/
structure FState where
  status : FStatus
  current_node_id : Option String
  node_results : List (String × Val)
deriving DecidableEq

/-- One numbered artifact file written to the run directory for an
executed node (the separate 00-failure-input.json file written before
the loop is not a node artifact). -/
structure Artifact where
  step : Nat
  node_id : String
  filename : String
deriving DecidableEq

/-- The observable result of one pipeline run: final pipeline and
failure state, the node artifacts written, and the pipeline states
after each loop iteration (first entry: the state at creation). -/
structure RunResult where
  pipeline : PState
  failure : FState
  artifacts : List Artifact
  trace : List PState
deriving DecidableEq

/-- Python dict assignment on an association list: overwrite in place if
the key exists, else append. -/
def updateAssoc {α : Type} (l : List (String × α)) (k : String) (v : α) :
    List (String × α) :=
  if l.any (fun p => p.1 == k) then
    l.map (fun p => if p.1 == k then (k, v) else p)
  else l ++ [(k, v)]

/-- Outcome of the try block executing one node: the result dict on
success, or the message of the raised exception.  The oracle stands for
the agent, HTTP and condition evaluation I/O. -/
inductive Outcome where
  | ok (v : Val)
  | err (msg : String)

/-- The node types the executor dispatches on; all others are silently
passed over. -/
def executableTypes : List String := ["promptBlock", "httpRequest", "condition"]

/-- Python f-string 02d formatting of the step number. -/
def pad2 (n : Nat) : String :=
  if n < 10 then "0" ++ toString n else toString n

/-- Replace each maximal run of dashes and whitespace with one dash
(re.sub of a dash-or-whitespace class, one or more times, by a dash). -/
def collapseRuns : List Char → List Char
  | [] => []
  | c :: rest =>
      if c == '-' || c.isWhitespace then
        match rest with
        | d :: _ =>
            if d == '-' || d.isWhitespace then collapseRuns rest
            else '-' :: collapseRuns rest
        | [] => ['-']
      else c :: collapseRuns rest

/-- The label sanitization of _execute_pipeline: drop characters that
are not word, whitespace or dash; strip; lowercase; collapse dash and
whitespace runs to a dash; truncate to 40 characters. -/
def sanitizeLabel (label : String) : String :=
  let kept := label.data.filter (fun c => isWordChar c || c.isWhitespace || c == '-')
  let stripped := ((kept.dropWhile Char.isWhitespace).reverse.dropWhile
    Char.isWhitespace).reverse
  let lowered := stripped.map Char.toLower
  String.mk ((collapseRuns lowered).take 40)

/-- The artifact filename format of _execute_pipeline. -/
def mkFilename (step : Nat) (label : String) : String :=
  pad2 step ++ "-" ++ sanitizeLabel label ++ ".json"

/-- The node-execution loop of _execute_pipeline, one recursive step per
element of the execution order.  The broadcast calls and the file writes
are pure observations here (tasks, trace, artifacts). -/
def runLoop (nodes : List NodeJ) (env : String → Outcome) :
    Nat → List String → PState → FState → List Artifact → List PState → RunResult
  | _, [], p, f, arts, tr =>
      let f2 : FState :=
        { status := FStatus.completed
          current_node_id := none
          node_results := f.node_results }
      let p2 : PState := { p with status := FStatus.completed }
      { pipeline := p2, failure := f2, artifacts := arts, trace := tr ++ [p2] }
  | i, nid :: rest, p, f, arts, tr =>
      match nodes.find? (fun n => n.id == nid) with
      | none => runLoop nodes env (i + 1) rest p f arts (tr ++ [p])
      | some node =>
          if executableTypes.contains node.type then
            let p1 := { p with current_index := i }
            let f1 := { f with current_node_id := some nid }
            let label := node.label.getD nid
            let task0 : TaskExec :=
              { node_id := nid
                node_type := node.type
                node_label := label
                status := TStatus.pending
                error := none }
            let p2 := { p1 with tasks := updateAssoc p1.tasks nid task0 }
            match env nid with
            | Outcome.err m =>
                let task1 := { task0 with status := TStatus.failed, error := some m }
                let p3 := { p2 with tasks := updateAssoc p2.tasks nid task1 }
                let f2 := { f1 with status := FStatus.failed }
                { pipeline := p3
                  failure := f2
                  artifacts := arts
                  trace := tr ++ [p3] }
            | Outcome.ok v =>
                let task1 := { task0 with status := TStatus.completed }
                let p3 := { p2 with
                  tasks := updateAssoc p2.tasks nid task1
                  node_outputs := updateAssoc p2.node_outputs nid v }
                let f2 := { f1 with node_results := updateAssoc f1.node_results nid v }
                let art : Artifact :=
                  { step := i + 1, node_id := nid, filename := mkFilename (i + 1) label }
                runLoop nodes env (i + 1) rest p3 f2 (arts ++ [art]) (tr ++ [p3])
          else runLoop nodes env (i + 1) rest p f arts (tr ++ [p])

/-- One run of _execute_pipeline after the workflow loaded: failure and
pipeline set to running, order computed, then the node loop. -/
def runPipeline (nodes : List NodeJ) (edges : List EdgeJ) (env : String → Outcome) :
    RunResult :=
  let order := getExecutionOrder nodes edges
  let p0 : PState :=
    { status := FStatus.running
      execution_order := order
      current_index := 0
      node_outputs := []
      tasks := [] }
  let f0 : FState :=
    { status := FStatus.running
      current_node_id := none
      node_results := [] }
  runLoop nodes env 0 order p0 f0 [] [p0]

/-- The failure fields touched by the retry, escalate and queue
operations. -/
structure FailureR where
  status : FStatus
  retry_count : Nat
  node_results : List (String × Val)
  workflow_id : Option String
  current_node_id : Option String
deriving DecidableEq

/-- Responses of the retry route. -/
inductive RetryResp where
  | requeued | errBadStatus | errNoWorkflow
deriving DecidableEq

/-- PipelineExecutor.queue_failure on an existing failure: resolve the
workflow id (argument first, else the active workflow), and when one
exists set it on the failure, reset the status to pending and put the
failure id on the execution queue (the Bool reports the enqueue). -/
def queueFailure (f : FailureR) (wfArg : Option String) (active : Option String) :
    FailureR × Bool :=
  match wfArg.orElse (fun _ => active) with
  | none => (f, false)
  | some w => ({ f with workflow_id := some w, status := FStatus.pending }, true)

/-- The retry route on an existing failure: reject statuses other than
failed and escalated; otherwise reset the failure and requeue it when a
prior or active workflow id exists. -/
def retryFailure (f : FailureR) (active : Option String) : FailureR × RetryResp :=
  if !(f.status == FStatus.failed || f.status == FStatus.escalated) then
    (f, RetryResp.errBadStatus)
  else
    let f1 := { f with
                status := FStatus.pending
                retry_count := f.retry_count + 1
                node_results := []
                current_node_id := none }
    match f1.workflow_id.orElse (fun _ => active) with
    | some w => ((queueFailure f1 (some w) active).1, RetryResp.requeued)
    | none => (f1, RetryResp.errNoWorkflow)

/-- The escalate route on an existing failure: set the status to
escalated, with no precondition on the current status. -/
def escalateFailure (f : FailureR) : FailureR :=
  { f with status := FStatus.escalated }

/-- PipelineExecutor.create_failure: the fresh failure record. -/
def createFailure : FailureR :=
  { status := FStatus.pending
    retry_count := 0
    node_results := []
    workflow_id := none
    current_node_id := none }

/-- Agent health values of models.HealthStatus. -/
inductive Health where
  | healthy | stale | disconnected
deriving DecidableEq

/-- The agent-state fields read and written by the heartbeat cycle. -/
structure AgentHB where
  connected : Bool
  health : Health
  last_heartbeat : Option Int
deriving DecidableEq

/-- AgentConnection.heartbeat: returns false without touching state when
not connected or when the ping fails (probeOk covers the ping round trip
within its timeout); on success refreshes last_heartbeat and health. -/
def heartbeatProbe (s : AgentHB) (probeOk : Bool) (now : Int) : AgentHB × Bool :=
  if !s.connected then (s, false)
  else if probeOk then
    ({ s with last_heartbeat := some now, health := Health.healthy }, true)
  else (s, false)

/-- HeartbeatService._mark_stale_if_needed: demote to stale only when a
last heartbeat exists and the elapsed time exceeds the threshold. -/
def markStaleIfNeeded (s : AgentHB) (now staleThreshold : Int) : AgentHB :=
  match s.last_heartbeat with
  | none => s
  | some lhb =>
      if now - lhb > staleThreshold && !(s.health == Health.stale) then
        { s with health := Health.stale }
      else s

/-- One agent's slice of HeartbeatService._check_all_agents: skip agents
not marked connected; on probe success the state is already healthy (the
probe itself refreshed it); on failure consult the stale threshold. -/
def checkAgentCycle (s : AgentHB) (probeOk : Bool) (now staleThreshold : Int) :
    AgentHB :=
  if !s.connected then s
  else
    let pr := heartbeatProbe s probeOk now
    if pr.2 then pr.1
    else markStaleIfNeeded pr.1 now staleThreshold

/-- A registry entry as read by the agent manager. -/
structure RegEntry where
  port : Option Int
  projectPath : Option String
deriving DecidableEq

/-- The runtime agent state consulted by the selection policies. -/
structure AgentRec where
  connected : Bool
  health : Health
deriving DecidableEq

/-- The agent manager's tables: connection ids in insertion order, the
agents dict and the registry snapshot in insertion order. -/
structure MgrState where
  connections : List String
  agents : List (String × AgentRec)
  registry : List (String × RegEntry)
deriving DecidableEq

/-- Python agents.get(id, dict()).get(connected): false when absent. -/
def agentConnected (m : MgrState) (id : String) : Bool :=
  match m.agents.find? (fun p => p.1 == id) with
  | some p => p.2.connected
  | none => false

/-- The health recorded for an agent, if any. -/
def agentHealth (m : MgrState) (id : String) : Option Health :=
  (m.agents.find? (fun p => p.1 == id)).map (fun p => p.2.health)

/-- The iteration of AgentManager.get_connected_agent over the
connections dict. -/
def connectedAgentLoop (m : MgrState) : List String → Option String
  | [] => none
  | id :: rest =>
      if agentConnected m id then some id else connectedAgentLoop m rest

/-- AgentManager.get_connected_agent: the first connection whose agent
state is marked connected. -/
def getConnectedAgent (m : MgrState) : Option String :=
  connectedAgentLoop m m.connections

/-- The iteration of AgentManager.get_agent_for_project over the registry
snapshot: an entry is returned when its projectPath equals the requested
path exactly, a connection object exists and the agent state is marked
connected; otherwise the loop continues. -/
def agentForProjectLoop (m : MgrState) (path : String) :
    List (String × RegEntry) → Option String
  | [] => none
  | (id, e) :: rest =>
      if e.projectPath == some path && m.connections.contains id &&
          agentConnected m id then some id
      else agentForProjectLoop m path rest

/-- AgentManager.get_agent_for_project. -/
def getAgentForProject (m : MgrState) (path : String) : Option String :=
  agentForProjectLoop m path m.registry


/-- Whether some node with this id has the workflowStart type. -/
def hasStartType (nodes : List NodeJ) (nid : String) : Bool :=
  nodes.any (fun n => n.id == nid && n.type == "workflowStart")

/-- The edge relation of the retained graph. -/
def EdgeRel (nodes : List NodeJ) (edges : List EdgeJ) (u v : String) : Prop :=
  ∃ e ∈ validEdges nodes edges, e.source = u ∧ e.target = v

/-- Acyclicity of the workflow graph: no id reaches itself through a
nonempty chain of retained edges. -/
def Acyclic (nodes : List NodeJ) (edges : List EdgeJ) : Prop :=
  ∀ v, ¬ Relation.TransGen (EdgeRel nodes edges) v v

/-- The number of retained edges into v whose source is already in the
order (drives the in-degree bookkeeping of the BFS loop). -/
def visCount (nodes : List NodeJ) (edges : List EdgeJ)
    (order : List String) (v : String) : Int :=
  (((validEdges nodes edges).filter
    (fun e => e.target == v && order.contains e.source)).length : Int)

/-- The number of retained edges from u to v. -/
def countEdges (nodes : List NodeJ) (edges : List EdgeJ) (u v : String) : Nat :=
  ((validEdges nodes edges).filter
    (fun e => e.source == u && e.target == v)).length

/-- All retained in-edges of v have their source in the order already. -/
def allSourcesIn (nodes : List NodeJ) (edges : List EdgeJ)
    (order : List String) (v : String) : Prop :=
  ∀ e ∈ validEdges nodes edges, e.target = v → e.source ∈ order

/-- The decreasing measure of the BFS loop: queue length plus the total
adjacency size of the unvisited nodes. -/
def kahnMeasure (nodes : List NodeJ) (edges : List EdgeJ)
    (queue order : List String) : Nat :=
  queue.length +
    (((nodeIds nodes).filter (fun u => !(order.contains u))).map
      (fun u => (adjOf nodes edges u).length)).sum

/-- The loop invariant of the BFS of _get_execution_order. -/
def kahnInv (nodes : List NodeJ) (edges : List EdgeJ)
    (queue order : List String) (indeg : String → Int) : Prop :=
  order.Nodup ∧
  (∀ x ∈ order, x ∈ nodeIds nodes) ∧
  (∀ x ∈ queue, x ∈ nodeIds nodes) ∧
  (∀ v, indeg v = inDegree nodes edges v - visCount nodes edges order v) ∧
  (∀ v ∈ queue, hasStartType nodes v = true ∨ allSourcesIn nodes edges order v) ∧
  (∀ v ∈ order, hasStartType nodes v = true ∨
    ∀ e ∈ validEdges nodes edges, e.target = v → List.Sublist [e.source, v] order) ∧
  (∀ v ∈ nodeIds nodes, allSourcesIn nodes edges order v → v ∈ order ∨ v ∈ queue)

/-- What holds of the finished order. -/
def kahnFinal (nodes : List NodeJ) (edges : List EdgeJ)
    (finalOrder : List String) : Prop :=
  finalOrder.Nodup ∧
  (∀ x ∈ finalOrder, x ∈ nodeIds nodes) ∧
  (∀ v ∈ finalOrder, hasStartType nodes v = true ∨
    ∀ e ∈ validEdges nodes edges, e.target = v → List.Sublist [e.source, v] finalOrder) ∧
  (∀ v ∈ nodeIds nodes, allSourcesIn nodes edges finalOrder v → v ∈ finalOrder)

/-- Node lookup of the execution loop. -/
def findNode (nodes : List NodeJ) (nid : String) : Option NodeJ :=
  nodes.find? (fun n => n.id == nid)

/-- Whether the executor dispatches on this node id (node found and of
an executable type). -/
def isExecuted (nodes : List NodeJ) (nid : String) : Bool :=
  match findNode nodes nid with
  | some node => executableTypes.contains node.type
  | none => false

/-- Whether this node id is dispatched and its execution succeeds. -/
def executedOk (nodes : List NodeJ) (env : String → Outcome) (nid : String) : Bool :=
  isExecuted nodes nid &&
    match env nid with
    | Outcome.ok _ => true
    | Outcome.err _ => false

/-- Whether this node id is dispatched and its execution raises. -/
def failsAt (nodes : List NodeJ) (env : String → Outcome) (nid : String) : Bool :=
  isExecuted nodes nid &&
    match env nid with
    | Outcome.ok _ => false
    | Outcome.err _ => true

/-- The artifacts the loop writes from position i onward: one numbered
file per dispatched node until the first raising node, none for skipped
nodes. -/
def artifactsFrom (nodes : List NodeJ) (env : String → Outcome) :
    Nat → List String → List Artifact
  | _, [] => []
  | i, nid :: rest =>
      match findNode nodes nid with
      | none => artifactsFrom nodes env (i + 1) rest
      | some node =>
          if executableTypes.contains node.type then
            match env nid with
            | Outcome.err _ => []
            | Outcome.ok _ =>
                { step := i + 1, node_id := nid,
                  filename := mkFilename (i + 1) (node.label.getD nid) } ::
                  artifactsFrom nodes env (i + 1) rest
          else artifactsFrom nodes env (i + 1) rest

/-! Theorems.  Helper lemmas come first; each claim has exactly one
theorem, marked by its claim id in the doc comment. -/

/-- One placeholder match consumes at least one character, so fuel equal
to the length of the text suffices for the scanner below. -/
theorem tryMatch_sublen (cs : List Char) (name : String) (r : List Char)
    (h : tryMatch cs = some (name, r)) : r.length < cs.length := by
  match cs with
  | [] => simp [tryMatch] at h
  | [c] => simp [tryMatch] at h
  | c1 :: c2 :: rest =>
    simp only [tryMatch] at h
    have key : (rest.drop (rest.takeWhile isWordChar).length).length ≤ rest.length := by
      simp [List.length_drop]
    split at h
    · split at h
      · simp at h
      · split at h
        next d1 d2 r2 r1eq =>
          rw [r1eq] at key
          simp only [List.length_cons] at key
          split at h
          · simp only [Option.some.injEq, Prod.mk.injEq] at h
            simp only [List.length_cons, ← h.2]
            omega
          · split at h
            · split at h
              · simp at h
              · have key2 : ((d2 :: r2).drop ((d2 :: r2).takeWhile isWordChar).length).length
                    ≤ (d2 :: r2).length := by
                  simp [List.length_drop]
                split at h
                next e1 e2 r4 r3eq =>
                  rw [r3eq] at key2
                  simp only [List.length_cons] at key2
                  split at h
                  · simp only [Option.some.injEq, Prod.mk.injEq] at h
                    simp only [List.length_cons, ← h.2]
                    omega
                  · simp at h
                next => simp at h
            · simp at h
        next => simp at h
    · simp at h

theorem substFuel_no_match (ctx : Context) :
    ∀ (fuel : Nat) (cs : List Char),
      (∀ t ∈ cs.tails, tryMatch t = none) → substFuel ctx fuel cs = cs := by
  intro fuel
  induction fuel with
  | zero => intro cs _; rfl
  | succ n ih =>
    intro cs h
    have h0 : tryMatch cs = none := h cs ((List.mem_tails _ _).mpr List.suffix_rfl)
    cases cs with
    | nil => simp [substFuel, h0]
    | cons c rest =>
      have hrest : ∀ t ∈ rest.tails, tryMatch t = none := by
        intro t ht
        exact h t ((List.mem_tails _ _).mpr
          (((List.mem_tails _ _).mp ht).trans (List.suffix_cons c rest)))
      simp [substFuel, h0, ih rest hrest]

/-- Claim C9: a template with no placeholder of the substitution pattern
is returned unchanged by variable substitution, for every context. -/
theorem claim_C9 (text : String) (ctx : Context)
    (h : hasPlaceholder text = false) : substituteVariables text ctx = text := by
  have hall : ∀ t ∈ text.data.tails, tryMatch t = none := by
    intro t ht
    have hts := (List.any_eq_false).mp h t ht
    cases htm : tryMatch t with
    | none => rfl
    | some x => rw [htm] at hts; simp at hts
  show String.mk (substFuel ctx text.data.length text.data) = text
  rw [substFuel_no_match ctx text.data.length text.data hall]

/-- Witness for claim C9 at a concrete placeholder-free template. -/
theorem claim_C9_witness :
    hasPlaceholder "Analyze the failing test." = false ∧
      substituteVariables "Analyze the failing test." [("input", Val.vStr "x")] =
        "Analyze the failing test." :=
  ⟨by decide, claim_C9 "Analyze the failing test." [("input", Val.vStr "x")] (by decide)⟩

theorem replaceVar_eq_specResolve (ctx : Context) (name : String) :
    replaceVar ctx name = specResolve ctx name := by
  unfold replaceVar specResolve specDirectValue specInputFallback ctxHas ValFields.hasKey
  cases hg : ctxGet ctx name with
  | some v =>
    simp only [hg, Option.isSome_some, if_true, Option.getD_some]
    cases v with
    | vObj fields =>
      cases hr : fields.get "response" with
      | some r => simp [hr]
      | none =>
        cases hd : fields.get "data" with
        | some d =>
          cases d <;> simp [hr, hd]
        | none => simp [hr, hd]
    | vStr s => simp
    | vBool b => simp
    | vNull => simp
  | none =>
    simp only [hg, Option.isSome_none, Bool.false_eq_true, if_false]
    cases hs : splitOnFirstDot name with
    | some pr =>
      obtain ⟨nodeId, outputName⟩ := pr
      cases hn : ctxGet ctx nodeId with
      | some nv =>
        cases nv with
        | vObj nodeOutput =>
          cases ho : nodeOutput.get outputName with
          | some s => simp [hn, ho]
          | none =>
            simp only [hn, ho, Option.map_none, Option.isSome_none,
              Bool.false_eq_true, if_false]
            cases hi : ctxGet ctx "input" <;> simp [hi]
        | vStr s => cases hi : ctxGet ctx "input" <;> simp [hn, hi]
        | vBool b => cases hi : ctxGet ctx "input" <;> simp [hn, hi]
        | vNull => cases hi : ctxGet ctx "input" <;> simp [hn, hi]
      | none =>
        simp only [hn]
        cases hi : ctxGet ctx "input" <;> simp [hi]
    | none =>
      simp only [hs]
      cases hi : ctxGet ctx "input" <;> simp [hi]

/-- Claim C7: each placeholder is replaced by the first applicable of
(a) the direct context key, preferring response, then data (serialized
when structured), then the whole value serialized, (b) the dotted
nodeId.outputName lookup, (c) the context input value, (d) the verbatim
placeholder; and on the concrete example the template resolves to the
response field. -/
theorem claim_C7 :
    (∀ (ctx : Context) (name : String), replaceVar ctx name = specResolve ctx name) ∧
      substituteVariables "Result: \x7b\x7bstep1\x7d\x7d"
        [("step1", Val.vObj (ValFields.cons "response" (Val.vStr "42") ValFields.nil))] =
        "Result: 42" :=
  ⟨replaceVar_eq_specResolve, by decide⟩


theorem cac_conn (s : AgentHB) (p : Bool) (now thr : Int) :
    (checkAgentCycle s p now thr).connected = s.connected := by
  obtain ⟨conn, health, lhbo⟩ := s
  simp only [checkAgentCycle, heartbeatProbe, markStaleIfNeeded]
  cases conn <;> cases p <;> cases lhbo <;> simp
  split <;> rfl

theorem cac_nodisc (s : AgentHB) (p : Bool) (now thr : Int)
    (h : (checkAgentCycle s p now thr).health = Health.disconnected) :
    s.health = Health.disconnected := by
  obtain ⟨conn, health, lhbo⟩ := s
  simp only [checkAgentCycle, heartbeatProbe, markStaleIfNeeded] at h
  cases conn <;> cases p <;> cases lhbo <;> simp_all
  split at h
  next => simp at h
  next => exact h

theorem cac_success (s : AgentHB) (now thr : Int) (hc : s.connected = true) :
    (checkAgentCycle s true now thr).health = Health.healthy ∧
      (checkAgentCycle s true now thr).last_heartbeat = some now := by
  obtain ⟨conn, health, lhbo⟩ := s
  simp only at hc
  subst hc
  exact ⟨rfl, rfl⟩

theorem cac_miss_within (s : AgentHB) (now thr : Int)
    (hh : s.health = Health.healthy)
    (hb : ∀ lhb, s.last_heartbeat = some lhb → now - lhb ≤ thr) :
    (checkAgentCycle s false now thr).health = Health.healthy := by
  obtain ⟨conn, health, lhbo⟩ := s
  simp only at hh
  subst hh
  simp only [checkAgentCycle, heartbeatProbe, markStaleIfNeeded]
  cases conn <;> cases lhbo <;> simp_all
  rw [if_neg (by omega)]

theorem cac_stale_only (s : AgentHB) (p : Bool) (now thr : Int)
    (h : (checkAgentCycle s p now thr).health = Health.stale) :
    s.health = Health.stale ∨
      (p = false ∧ ∃ lhb, s.last_heartbeat = some lhb ∧ now - lhb > thr) := by
  obtain ⟨conn, health, lhbo⟩ := s
  simp only [checkAgentCycle, heartbeatProbe, markStaleIfNeeded] at h
  cases conn <;> cases p <;> cases lhbo <;> simp_all
  split at h
  next hc => exact Or.inr hc.1
  next => exact Or.inl h

/-- Claim C4: a heartbeat-check cycle never sets health to disconnected
and never changes the connected flag; a failed probe demotes to stale
only when the elapsed time since last_heartbeat exceeds the threshold (a
missed probe within the threshold leaves a healthy agent healthy); a
successful probe on a connected agent restores healthy and refreshes
last_heartbeat. -/
theorem claim_C4 (s : AgentHB) (probeOk : Bool) (now thr : Int) :
    (checkAgentCycle s probeOk now thr).connected = s.connected ∧
    ((checkAgentCycle s probeOk now thr).health = Health.disconnected →
      s.health = Health.disconnected) ∧
    (probeOk = true → s.connected = true →
      (checkAgentCycle s probeOk now thr).health = Health.healthy ∧
        (checkAgentCycle s probeOk now thr).last_heartbeat = some now) ∧
    (probeOk = false → s.health = Health.healthy →
      (∀ lhb, s.last_heartbeat = some lhb → now - lhb ≤ thr) →
      (checkAgentCycle s probeOk now thr).health = Health.healthy) ∧
    ((checkAgentCycle s probeOk now thr).health = Health.stale →
      s.health = Health.stale ∨
        (probeOk = false ∧ ∃ lhb, s.last_heartbeat = some lhb ∧ now - lhb > thr)) := by
  refine ⟨cac_conn s probeOk now thr, cac_nodisc s probeOk now thr, ?_, ?_,
    cac_stale_only s probeOk now thr⟩
  · intro hp hc
    subst hp
    exact cac_success s now thr hc
  · intro hp hh hb
    subst hp
    exact cac_miss_within s now thr hh hb

/-- Witness for claim C4: a healthy connected agent, one failed probe
within the stale threshold. -/
theorem claim_C4_witness :
    (checkAgentCycle ⟨true, Health.healthy, some 0⟩ false 10 30).connected = true ∧
    ((checkAgentCycle ⟨true, Health.healthy, some 0⟩ false 10 30).health =
        Health.disconnected → Health.healthy = Health.disconnected) ∧
    (false = true → true = true →
      (checkAgentCycle ⟨true, Health.healthy, some 0⟩ false 10 30).health =
          Health.healthy ∧
        (checkAgentCycle ⟨true, Health.healthy, some 0⟩ false 10 30).last_heartbeat =
          some 10) ∧
    (false = false → Health.healthy = Health.healthy →
      (∀ lhb : Int, some 0 = some lhb → (10 : Int) - lhb ≤ 30) →
      (checkAgentCycle ⟨true, Health.healthy, some 0⟩ false 10 30).health =
        Health.healthy) ∧
    ((checkAgentCycle ⟨true, Health.healthy, some 0⟩ false 10 30).health =
        Health.stale →
      Health.healthy = Health.stale ∨
        (false = false ∧ ∃ lhb : Int, some 0 = some lhb ∧ (10 : Int) - lhb > 30)) :=
  claim_C4 ⟨true, Health.healthy, some 0⟩ false 10 30

theorem runLoop_failure_status (nodes : List NodeJ) (env : String → Outcome) :
    ∀ (order : List String) (i : Nat) (p : PState) (f : FState)
      (arts : List Artifact) (tr : List PState),
      (runLoop nodes env i order p f arts tr).failure.status = FStatus.completed ∨
        (runLoop nodes env i order p f arts tr).failure.status = FStatus.failed := by
  intro order
  induction order with
  | nil => intro i p f arts tr; left; rfl
  | cons nid rest ih =>
    intro i p f arts tr
    simp only [runLoop]
    cases hf : nodes.find? (fun n => n.id == nid) with
    | none => exact ih (i + 1) p f arts (tr ++ [p])
    | some node =>
      by_cases hex : executableTypes.contains node.type
      · simp only [hex, if_true]
        cases he : env nid with
        | err m => right; rfl
        | ok v => exact ih _ _ _ _ _
      · simp only [hex, Bool.false_eq_true, if_false]
        exact ih (i + 1) p f arts (tr ++ [p])

theorem runLoop_trace_status (nodes : List NodeJ) (env : String → Outcome) :
    ∀ (order : List String) (i : Nat) (p : PState) (f : FState)
      (arts : List Artifact) (tr : List PState),
      ∀ q ∈ (runLoop nodes env i order p f arts tr).trace,
        q ∈ tr ∨ q.status = p.status ∨ q.status = FStatus.completed := by
  intro order
  induction order with
  | nil =>
    intro i p f arts tr q hq
    simp only [runLoop, List.mem_append, List.mem_singleton] at hq
    rcases hq with hq | hq
    · exact Or.inl hq
    · right; right; rw [hq]
  | cons nid rest ih =>
    intro i p f arts tr q hq
    simp only [runLoop] at hq
    cases hf : nodes.find? (fun n => n.id == nid) with
    | none =>
      rw [hf] at hq
      rcases ih (i + 1) p f arts (tr ++ [p]) q hq with hm | hs
      · simp only [List.mem_append, List.mem_singleton] at hm
        rcases hm with hm | hm
        · exact Or.inl hm
        · right; left; rw [hm]
      · exact Or.inr hs
    | some node =>
      rw [hf] at hq
      by_cases hex : executableTypes.contains node.type
      · simp only [hex, if_true] at hq
        cases he : env nid with
        | err m =>
          rw [he] at hq
          simp only [List.mem_append, List.mem_singleton] at hq
          rcases hq with hq | hq
          · exact Or.inl hq
          · right; left; rw [hq]
        | ok v =>
          rw [he] at hq
          rcases ih _ _ _ _ _ q hq with hm | hs | hc
          · simp only [List.mem_append, List.mem_singleton] at hm
            rcases hm with hm | hm
            · exact Or.inl hm
            · right; left; rw [hm]
          · exact Or.inr (Or.inl hs)
          · exact Or.inr (Or.inr hc)
      · simp only [hex, Bool.false_eq_true, if_false] at hq
        rcases ih (i + 1) p f arts (tr ++ [p]) q hq with hm | hs
        · simp only [List.mem_append, List.mem_singleton] at hm
          rcases hm with hm | hm
          · exact Or.inl hm
          · right; left; rw [hm]
        · exact Or.inr hs

/-- Claim C5 counterexample: the escalate route has no status guard, so
it moves even a completed failure to escalated, contradicting the claim
that escalation happens only from failed or pending. -/
theorem claim_C5_counterexample :
    ({ status := FStatus.completed
       retry_count := 0
       node_results := []
       workflow_id := none
       current_node_id := none : FailureR }).status = FStatus.completed ∧
    (escalateFailure
      { status := FStatus.completed
        retry_count := 0
        node_results := []
        workflow_id := none
        current_node_id := none }).status = FStatus.escalated := by
  exact ⟨rfl, rfl⟩

/-- Claim C5 (amended): a failure reaches escalated only through the
explicit escalate operation, which performs no status check and
escalates from any state (including running and completed); the other
operations (create, queue, retry, pipeline runs) never move a failure
into escalated. -/
theorem claim_C5 :
    (∀ f : FailureR, (escalateFailure f).status = FStatus.escalated) ∧
    (∀ (f : FailureR) (wfArg active : Option String),
      (queueFailure f wfArg active).1.status = FStatus.escalated →
        f.status = FStatus.escalated) ∧
    (∀ (f : FailureR) (active : Option String),
      (retryFailure f active).1.status = FStatus.escalated →
        f.status = FStatus.escalated) ∧
    createFailure.status ≠ FStatus.escalated ∧
    (∀ (nodes : List NodeJ) (edges : List EdgeJ) (env : String → Outcome),
      (runPipeline nodes edges env).failure.status ≠ FStatus.escalated ∧
        ∀ q ∈ (runPipeline nodes edges env).trace, q.status ≠ FStatus.escalated) := by
  refine ⟨fun f => rfl, ?_, ?_, by decide, ?_⟩
  · intro f wfArg active h
    unfold queueFailure at h
    cases hwo : wfArg.orElse (fun _ => active) with
    | none => rw [hwo] at h; exact h
    | some w => rw [hwo] at h; simp at h
  · intro f active h
    unfold retryFailure queueFailure at h
    split at h
    · exact h
    · dsimp only at h
      cases hwo : f.workflow_id.orElse (fun _ => active) with
      | none => rw [hwo] at h; simp at h
      | some w => rw [hwo] at h; simp at h
  · intro nodes edges env
    have hrp : runPipeline nodes edges env =
        runLoop nodes env 0 (getExecutionOrder nodes edges)
          { status := FStatus.running
            execution_order := getExecutionOrder nodes edges
            current_index := 0
            node_outputs := []
            tasks := [] }
          { status := FStatus.running
            current_node_id := none
            node_results := [] } []
          [{ status := FStatus.running
             execution_order := getExecutionOrder nodes edges
             current_index := 0
             node_outputs := []
             tasks := [] }] := rfl
    constructor
    · rw [hrp]
      rcases runLoop_failure_status nodes env (getExecutionOrder nodes edges) 0
          { status := FStatus.running
            execution_order := getExecutionOrder nodes edges
            current_index := 0
            node_outputs := []
            tasks := [] }
          { status := FStatus.running
            current_node_id := none
            node_results := [] } []
          [{ status := FStatus.running
             execution_order := getExecutionOrder nodes edges
             current_index := 0
             node_outputs := []
             tasks := [] }] with hc | hf
      · intro hesc
        rw [hesc] at hc
        exact FStatus.noConfusion hc
      · intro hesc
        rw [hesc] at hf
        exact FStatus.noConfusion hf
    · rw [hrp]
      intro q hq hesc
      rcases runLoop_trace_status nodes env (getExecutionOrder nodes edges) 0
          { status := FStatus.running
            execution_order := getExecutionOrder nodes edges
            current_index := 0
            node_outputs := []
            tasks := [] }
          { status := FStatus.running
            current_node_id := none
            node_results := [] } []
          [{ status := FStatus.running
             execution_order := getExecutionOrder nodes edges
             current_index := 0
             node_outputs := []
             tasks := [] }] q hq with hm | hs | hcp
      · simp only [List.mem_singleton] at hm
        rw [hm] at hesc
        exact FStatus.noConfusion hesc
      · rw [hesc] at hs
        exact FStatus.noConfusion hs
      · rw [hesc] at hcp
        exact FStatus.noConfusion hcp

theorem connectedAgentLoop_sound (m : MgrState) :
    ∀ (l : List String) (id : String),
      connectedAgentLoop m l = some id → agentConnected m id = true := by
  intro l
  induction l with
  | nil => intro id h; simp [connectedAgentLoop] at h
  | cons x rest ih =>
    intro id h
    unfold connectedAgentLoop at h
    by_cases hx : agentConnected m x = true
    · rw [if_pos hx] at h
      cases h
      exact hx
    · rw [if_neg hx] at h
      exact ih id h

theorem agentForProjectLoop_eq_find (m : MgrState) (path : String) :
    ∀ l : List (String × RegEntry),
      agentForProjectLoop m path l =
        (l.find? (fun p => p.2.projectPath == some path &&
          m.connections.contains p.1 && agentConnected m p.1)).map (fun p => p.1) := by
  intro l
  induction l with
  | nil => rfl
  | cons x rest ih =>
    obtain ⟨id, e⟩ := x
    unfold agentForProjectLoop
    rw [List.find?_cons]
    by_cases hc : (e.projectPath == some path && m.connections.contains id &&
        agentConnected m id) = true
    · simp only [hc, if_true]
      rfl
    · simp only [hc, Bool.false_eq_true, if_false]
      exact ih

/-- Claim C6 counterexample: get_connected_agent checks only the
connected flag, so it returns an agent whose recorded health is stale,
contradicting the claim that the returned agent is always healthy. -/
theorem claim_C6_counterexample :
    getConnectedAgent
      { connections := ["agent-1"]
        agents := [("agent-1", { connected := true, health := Health.stale })]
        registry := [] } = some "agent-1" ∧
    ¬ agentHealth
      { connections := ["agent-1"]
        agents := [("agent-1", { connected := true, health := Health.stale })]
        registry := [] } "agent-1" = some Health.healthy := by
  exact ⟨rfl, by decide⟩

/-- Claim C6 (amended): an agent returned by getConnectedAgent always
has connected true, but its health is not checked (it may be stale);
getAgentForProject returns the first entry of the registry snapshot, in
insertion order, whose projectPath equals the requested path exactly and
which has a connection whose agent state is marked connected. -/
theorem claim_C6 :
    (∀ (m : MgrState) (id : String),
      getConnectedAgent m = some id → agentConnected m id = true) ∧
    (∀ (m : MgrState) (path : String),
      getAgentForProject m path =
        (m.registry.find? (fun p => p.2.projectPath == some path &&
          m.connections.contains p.1 && agentConnected m p.1)).map (fun p => p.1)) :=
  ⟨fun m id h => connectedAgentLoop_sound m m.connections id h,
   fun m path => agentForProjectLoop_eq_find m path m.registry⟩

/-- Witness for claim C6 at a concrete manager state: a connected agent
is returned and has connected true; the project lookup picks the first
matching connected entry. -/
theorem claim_C6_witness :
    agentConnected
      { connections := ["a1"]
        agents := [("a1", { connected := true, health := Health.healthy })]
        registry := [("a1", { port := some 1, projectPath := some "/p" })] }
      "a1" = true ∧
    getAgentForProject
      { connections := ["a1"]
        agents := [("a1", { connected := true, health := Health.healthy })]
        registry := [("a1", { port := some 1, projectPath := some "/p" })] }
      "/p" = some "a1" :=
  ⟨claim_C6.1
    { connections := ["a1"]
      agents := [("a1", { connected := true, health := Health.healthy })]
      registry := [("a1", { port := some 1, projectPath := some "/p" })] }
    "a1" (by decide),
   by
    rw [claim_C6.2
      { connections := ["a1"]
        agents := [("a1", { connected := true, health := Health.healthy })]
        registry := [("a1", { port := some 1, projectPath := some "/p" })] }
      "/p"]
    decide⟩

/-- Claim C3: retrying a failed failure resets it to pending, increments
retry_count by one, clears node_results and current_node_id, and
requeues it against its prior workflow id, or the active workflow id
when it had none (the claim presupposes that one of the two exists; in
the engine a failure only becomes failed while carrying a workflow id);
retrying a failure whose status is neither failed nor escalated changes
nothing and returns an error. -/
theorem claim_C3 (f : FailureR) (active : Option String) (w : String)
    (hst : f.status = FStatus.failed)
    (hw : f.workflow_id = some w ∨ (f.workflow_id = none ∧ active = some w)) :
    (retryFailure f active).1.status = FStatus.pending ∧
    (retryFailure f active).1.retry_count = f.retry_count + 1 ∧
    (retryFailure f active).1.node_results = [] ∧
    (retryFailure f active).1.current_node_id = none ∧
    (retryFailure f active).1.workflow_id = some w ∧
    (retryFailure f active).2 = RetryResp.requeued ∧
    (∀ g : FailureR, ¬(g.status = FStatus.failed ∨ g.status = FStatus.escalated) →
      retryFailure g active = (g, RetryResp.errBadStatus)) := by
  have hguard : (!(f.status == FStatus.failed || f.status == FStatus.escalated)) = false := by
    rw [hst]
    rfl
  have horelse : ({ f with
      status := FStatus.pending
      retry_count := f.retry_count + 1
      node_results := []
      current_node_id := none : FailureR }).workflow_id.orElse (fun _ => active) =
        some w := by
    rcases hw with hw | ⟨hw1, hw2⟩
    · simp [hw, Option.orElse]
    · simp [hw1, hw2, Option.orElse]
  have hmain : retryFailure f active =
      (({ f with
          status := FStatus.pending
          retry_count := f.retry_count + 1
          node_results := []
          current_node_id := none
          workflow_id := some w : FailureR }), RetryResp.requeued) := by
    unfold retryFailure
    rw [hguard]
    simp only [Bool.false_eq_true, if_false]
    rw [horelse]
    simp [queueFailure]
  refine ⟨?_, ?_, ?_, ?_, ?_, ?_, ?_⟩
  · rw [hmain]
  · rw [hmain]
  · rw [hmain]
  · rw [hmain]
  · rw [hmain]
  · rw [hmain]
  · intro g hg
    have hgguard : (!(g.status == FStatus.failed || g.status == FStatus.escalated)) = true := by
      cases hgs : g.status <;> simp_all
    unfold retryFailure
    rw [hgguard]
    simp

/-- Witness for claim C3: a failed failure carrying a workflow id. -/
theorem claim_C3_witness :
    (retryFailure
      { status := FStatus.failed
        retry_count := 2
        node_results := [("n1", Val.vStr "r")]
        workflow_id := some "wf-7"
        current_node_id := some "n1" } none).1.status = FStatus.pending ∧
    (retryFailure
      { status := FStatus.failed
        retry_count := 2
        node_results := [("n1", Val.vStr "r")]
        workflow_id := some "wf-7"
        current_node_id := some "n1" } none).1.retry_count = 2 + 1 ∧
    (retryFailure
      { status := FStatus.failed
        retry_count := 2
        node_results := [("n1", Val.vStr "r")]
        workflow_id := some "wf-7"
        current_node_id := some "n1" } none).1.node_results = [] ∧
    (retryFailure
      { status := FStatus.failed
        retry_count := 2
        node_results := [("n1", Val.vStr "r")]
        workflow_id := some "wf-7"
        current_node_id := some "n1" } none).1.current_node_id = none ∧
    (retryFailure
      { status := FStatus.failed
        retry_count := 2
        node_results := [("n1", Val.vStr "r")]
        workflow_id := some "wf-7"
        current_node_id := some "n1" } none).1.workflow_id = some "wf-7" ∧
    (retryFailure
      { status := FStatus.failed
        retry_count := 2
        node_results := [("n1", Val.vStr "r")]
        workflow_id := some "wf-7"
        current_node_id := some "n1" } none).2 = RetryResp.requeued ∧
    (∀ g : FailureR, ¬(g.status = FStatus.failed ∨ g.status = FStatus.escalated) →
      retryFailure g none = (g, RetryResp.errBadStatus)) :=
  claim_C3
    { status := FStatus.failed
      retry_count := 2
      node_results := [("n1", Val.vStr "r")]
      workflow_id := some "wf-7"
      current_node_id := some "n1" } none "wf-7" rfl (Or.inl rfl)

theorem pnStep_fst (p : (String → Int) × List String) (nb : String) :
    (pnStep p nb).1 = fun x => if x == nb then p.1 nb - 1 else p.1 x := by
  unfold pnStep
  dsimp only
  split <;> rfl

theorem pnFold_indeg : ∀ (nbrs : List String) (d0 : String → Int)
    (acc0 : List String) (x : String),
    (nbrs.foldl pnStep (d0, acc0)).1 x = d0 x - nbrs.count x := by
  intro nbrs
  induction nbrs with
  | nil => intro d0 acc0 x; simp
  | cons nb rest ih =>
    intro d0 acc0 x
    have hstep : pnStep (d0, acc0) nb =
        ((fun y => if y == nb then d0 nb - 1 else d0 y), (pnStep (d0, acc0) nb).2) := by
      refine Prod.ext ?_ rfl
      exact pnStep_fst (d0, acc0) nb
    rw [List.foldl_cons, hstep, ih]
    by_cases hx : x = nb
    · subst hx
      simp [List.count_cons]
      omega
    · have hbeq : (x == nb) = false := by
        simp [hx]
      simp [hbeq, List.count_cons, hx]


theorem pnStep_eq (p : (String → Int) × List String) (nb : String) :
    pnStep p nb = (fun x => if x == nb then p.1 nb - 1 else p.1 x,
      if p.1 nb - 1 == 0 then p.2 ++ [nb] else p.2) := by
  unfold pnStep
  dsimp only
  split <;> simp_all


theorem pnFold_mem : ∀ (nbrs : List String) (d0 : String → Int)
    (acc0 : List String) (x : String),
    x ∈ (nbrs.foldl pnStep (d0, acc0)).2 ↔
      x ∈ acc0 ∨ (1 ≤ d0 x ∧ d0 x ≤ (nbrs.count x : Int)) := by
  intro nbrs
  induction nbrs with
  | nil =>
    intro d0 acc0 x
    simp only [List.foldl_nil, List.count_nil, Nat.cast_zero]
    constructor
    · intro h; exact Or.inl h
    · intro h
      rcases h with h | ⟨h1, h2⟩
      · exact h
      · omega
  | cons nb rest ih =>
    intro d0 acc0 x
    rw [List.foldl_cons, pnStep_eq]
    have hcount : ((nb :: rest).count x : Int) =
        (rest.count x : Int) + (if x = nb then 1 else 0) := by
      rw [List.count_cons]
      by_cases hx : x = nb
      · simp [hx]
      · simp only [hx, if_false]
        have hnbx : ¬nb = x := fun h => hx h.symm
        simp [hnbx]
    rw [hcount]
    by_cases hx : x = nb
    · subst hx
      simp only [if_true]
      by_cases hnv : d0 x = 1
      · rw [if_pos (by simp [hnv])]
        rw [ih]
        rw [show (if (x == x) = true then d0 x - 1 else d0 x) = d0 x - 1 from by simp]
        constructor
        · intro _
          right
          refine ⟨by omega, ?_⟩
          have hge : (0 : Int) ≤ (rest.count x : Int) := by positivity
          omega
        · intro _
          left
          simp
      · rw [if_neg (show ¬((d0 x - 1 == 0) = true) from by
          simp only [beq_iff_eq]
          omega)]
        rw [ih]
        rw [show (if (x == x) = true then d0 x - 1 else d0 x) = d0 x - 1 from by simp]
        constructor
        · intro h
          rcases h with h | ⟨h1, h2⟩
          · exact Or.inl h
          · right
            exact ⟨by omega, by omega⟩
        · intro h
          rcases h with h | ⟨h1, h2⟩
          · exact Or.inl h
          · right
            have hne : d0 x ≠ 1 := hnv
            exact ⟨by omega, by omega⟩
    · have hbeq : (x == nb) = false := by simp [hx]
      simp only [hx, if_false, add_zero]
      by_cases hnv : d0 nb - 1 = 0
      · rw [if_pos (by simp [hnv])]
        rw [ih]
        rw [show (if (x == nb) = true then d0 nb - 1 else d0 x) = d0 x from by
          simp [hbeq]]
        simp only [List.mem_append, List.mem_singleton]
        constructor
        · intro h
          rcases h with (h | h) | h
          · exact Or.inl h
          · exact absurd h hx
          · exact Or.inr h
        · intro h
          rcases h with h | h
          · exact Or.inl (Or.inl h)
          · exact Or.inr h
      · rw [if_neg (show ¬((d0 nb - 1 == 0) = true) from by
          simp only [beq_iff_eq]
          omega)]
        rw [ih]
        rw [show (if (x == nb) = true then d0 nb - 1 else d0 x) = d0 x from by
          simp [hbeq]]

theorem pnFold_len : ∀ (nbrs : List String) (d0 : String → Int) (acc0 : List String),
    (nbrs.foldl pnStep (d0, acc0)).2.length ≤ acc0.length + nbrs.length := by
  intro nbrs
  induction nbrs with
  | nil => intro d0 acc0; simp
  | cons nb rest ih =>
    intro d0 acc0
    rw [List.foldl_cons, pnStep_eq]
    by_cases hnv : d0 nb - 1 = 0
    · rw [if_pos (by simpa using hnv)]
      have h2 := ih (fun x => if x == nb then d0 nb - 1 else d0 x) (acc0 ++ [nb])
      simp at h2 ⊢
      omega
    · rw [if_neg (by simpa using hnv)]
      have h2 := ih (fun x => if x == nb then d0 nb - 1 else d0 x) acc0
      simp at h2 ⊢
      omega

theorem processNeighbors_indeg (nbrs : List String) (indeg : String → Int) (x : String) :
    (processNeighbors nbrs indeg).1 x = indeg x - nbrs.count x :=
  pnFold_indeg nbrs indeg [] x

theorem processNeighbors_mem (nbrs : List String) (indeg : String → Int) (x : String) :
    x ∈ (processNeighbors nbrs indeg).2 ↔
      1 ≤ indeg x ∧ indeg x ≤ (nbrs.count x : Int) := by
  rw [processNeighbors, pnFold_mem]
  simp

theorem processNeighbors_len (nbrs : List String) (indeg : String → Int) :
    (processNeighbors nbrs indeg).2.length ≤ nbrs.length := by
  have h2 := pnFold_len nbrs indeg []
  simpa using h2

theorem filter_split {α : Type} (l : List α) (p q : α → Bool) :
    (l.filter (fun a => p a && q a)).length +
      (l.filter (fun a => p a && !q a)).length = (l.filter p).length := by
  induction l with
  | nil => simp
  | cons a t ih =>
    simp only [List.filter_cons]
    by_cases hp : p a = true <;> by_cases hq : q a = true <;>
      simp [hp, hq] <;> omega

theorem filter_or_disjoint {α : Type} (l : List α) (p q r : α → Bool)
    (hdisj : ∀ a ∈ l, ¬(q a = true ∧ r a = true)) :
    (l.filter (fun a => p a && (q a || r a))).length =
      (l.filter (fun a => p a && q a)).length +
        (l.filter (fun a => p a && r a)).length := by
  induction l with
  | nil => simp
  | cons a t ih =>
    have hdt : ∀ b ∈ t, ¬(q b = true ∧ r b = true) := fun b hb => hdisj b (by simp [hb])
    have hda := hdisj a (by simp)
    have ih2 := ih hdt
    simp only [List.filter_cons]
    by_cases hp : p a = true
    · by_cases hq : q a = true
      · have hr : r a = false := by
          cases hrr : r a
          · rfl
          · exact absurd ⟨hq, hrr⟩ hda
        simp [hp, hq, hr]
        omega
      · by_cases hr : r a = true <;> simp [hp, hq, hr] <;> omega
    · simp [hp]
      omega

theorem sum_map_add {α : Type} (l : List α) (f g : α → Nat) :
    (l.map (fun a => f a + g a)).sum = (l.map f).sum + (l.map g).sum := by
  induction l with
  | nil => simp
  | cons a t ih =>
    simp only [List.map_cons, List.sum_cons, ih]
    omega

theorem count_map_target (l : List EdgeJ) (w : String) :
    ((l.map (fun e => e.target)).count w) = (l.filter (fun e => e.target == w)).length := by
  induction l with
  | nil => simp
  | cons e t ih =>
    simp only [List.map_cons, List.count_cons, List.filter_cons]
    by_cases h : e.target = w
    · simp [h, ih]
    · have h2 : (e.target == w) = false := by simp [h]
      have h3 : ¬w = e.target := fun hh => h hh.symm
      simp [h2, h3, ih]

theorem adj_count (nodes : List NodeJ) (edges : List EdgeJ) (v w : String) :
    (adjOf nodes edges v).count w = countEdges nodes edges v w := by
  unfold adjOf countEdges
  rw [count_map_target]
  rw [List.filter_filter]
  rw [List.filter_congr (fun (e : EdgeJ) _ => Bool.and_comm (e.target == w) (e.source == v))]

theorem visCount_nil (nodes : List NodeJ) (edges : List EdgeJ) (w : String) :
    visCount nodes edges [] w = 0 := by
  unfold visCount
  simp

theorem visCount_append (nodes : List NodeJ) (edges : List EdgeJ)
    (order : List String) (v w : String) (hv : v ∉ order) :
    visCount nodes edges (order ++ [v]) w =
      visCount nodes edges order w + countEdges nodes edges v w := by
  unfold visCount countEdges
  have hpred : ∀ e ∈ validEdges nodes edges,
      (e.target == w && (order ++ [v]).contains e.source) =
        (e.target == w && (order.contains e.source || e.source == v)) := by
    intro e _
    congr 1
    by_cases h : e.source = v <;> simp [h]
  rw [List.filter_congr hpred]
  have hdisj : ∀ e ∈ validEdges nodes edges,
      ¬(order.contains e.source = true ∧ (e.source == v) = true) := by
    intro e _ ⟨h1, h2⟩
    have : e.source = v := by simpa using h2
    rw [this] at h1
    exact hv (by simpa using h1)
  rw [filter_or_disjoint (validEdges nodes edges)
    (fun e => e.target == w) (fun e => order.contains e.source)
    (fun e => e.source == v) hdisj]
  have hcomm : (validEdges nodes edges).filter (fun e => e.target == w && e.source == v) =
      (validEdges nodes edges).filter (fun e => e.source == v && e.target == w) := by
    apply List.filter_congr
    intro e _
    rw [Bool.and_comm]
  rw [hcomm]
  push_cast
  ring

theorem visCount_le_inDegree (nodes : List NodeJ) (edges : List EdgeJ)
    (order : List String) (w : String) :
    visCount nodes edges order w ≤ inDegree nodes edges w := by
  unfold visCount inDegree
  have hle : ((validEdges nodes edges).filter
      (fun e => e.target == w && order.contains e.source)).length ≤
        ((validEdges nodes edges).filter (fun e => e.target == w)).length := by
    have := filter_split (validEdges nodes edges) (fun e => e.target == w)
      (fun e => order.contains e.source)
    omega
  exact_mod_cast hle

theorem inDegree_split (nodes : List NodeJ) (edges : List EdgeJ)
    (order : List String) (v w : String) (hv : v ∉ order)
    (hall : ∀ e ∈ validEdges nodes edges, e.target = w →
      e.source ∈ order ∨ e.source = v) :
    inDegree nodes edges w =
      visCount nodes edges order w + countEdges nodes edges v w := by
  have h1 : inDegree nodes edges w = visCount nodes edges (order ++ [v]) w := by
    unfold inDegree visCount
    congr 1
    have : ∀ e ∈ validEdges nodes edges,
        (e.target == w) = (e.target == w && (order ++ [v]).contains e.source) := by
      intro e he
      by_cases ht : e.target = w
      · have hsrc := hall e he ht
        have hcont : (order ++ [v]).contains e.source = true := by
          rcases hsrc with h | h
          · simp [List.mem_append, h]
          · simp [List.mem_append, h]
        rw [hcont]
        simp [ht]
      · simp [ht]
    exact congrArg List.length (List.filter_congr this)
  rw [h1, visCount_append nodes edges order v w hv]

theorem allSources_of_count (nodes : List NodeJ) (edges : List EdgeJ)
    (order : List String) (v w : String) (hv : v ∉ order)
    (hcnt : inDegree nodes edges w - visCount nodes edges order w ≤
      (countEdges nodes edges v w : Int)) :
    ∀ e ∈ validEdges nodes edges, e.target = w → e.source ∈ order ∨ e.source = v := by
  have hdisj : ∀ e ∈ validEdges nodes edges,
      ¬(order.contains e.source = true ∧ (e.source == v) = true) := by
    intro e _ ⟨h1, h2⟩
    have h3 : e.source = v := by simpa using h2
    rw [h3] at h1
    exact hv (by simpa using h1)
  have hsplit := filter_split (validEdges nodes edges) (fun e => e.target == w)
    (fun e => order.contains e.source || e.source == v)
  have hor := filter_or_disjoint (validEdges nodes edges) (fun e => e.target == w)
    (fun e => order.contains e.source) (fun e => e.source == v) hdisj
  have hcomm : ((validEdges nodes edges).filter
      (fun e => e.target == w && e.source == v)).length = countEdges nodes edges v w := by
    unfold countEdges
    exact congrArg List.length
      (List.filter_congr (fun (e : EdgeJ) _ => Bool.and_comm (e.target == w) (e.source == v)))
  have hvc : ((validEdges nodes edges).filter
      (fun e => e.target == w && order.contains e.source)).length =
        (visCount nodes edges order w).toNat := by
    unfold visCount
    simp
  have hid : ((validEdges nodes edges).filter (fun e => e.target == w)).length =
      (inDegree nodes edges w).toNat := by
    unfold inDegree
    simp
  have hzero : ((validEdges nodes edges).filter
      (fun e => e.target == w && !(order.contains e.source || e.source == v))).length = 0 := by
    have hvnn : (0 : Int) ≤ visCount nodes edges order w := by
      unfold visCount
      positivity
    have hinn : (0 : Int) ≤ inDegree nodes edges w := by
      unfold inDegree
      positivity
    dsimp only at hsplit hor hcomm hvc hid
    omega
  rw [List.length_eq_zero] at hzero
  intro e he ht
  have hmem : e ∉ (validEdges nodes edges).filter
      (fun e => e.target == w && !(order.contains e.source || e.source == v)) := by
    rw [hzero]
    simp
  by_contra hcon
  push_neg at hcon
  apply hmem
  rw [List.mem_filter]
  refine ⟨he, ?_⟩
  have h1 : (e.target == w) = true := by simp [ht]
  have h2 : order.contains e.source = false := by
    cases hc : order.contains e.source
    · rfl
    · exact absurd (by simpa using hc) hcon.1
  have h3 : (e.source == v) = false := by
    cases hc : e.source == v
    · rfl
    · exact absurd (by simpa using hc) hcon.2
  rw [h1, h2, h3]
  rfl

theorem sum_filter_drop_one (l : List String) (hnd : l.Nodup) (f : String → Nat)
    (P : String → Bool) (v : String) (hv : v ∈ l) (hP : P v = true) :
    ((l.filter (fun u => P u && !(u == v))).map f).sum + f v =
      ((l.filter P).map f).sum := by
  induction l with
  | nil => simp at hv
  | cons a t ih =>
    rw [List.nodup_cons] at hnd
    by_cases hav : a = v
    · subst hav
      have hnot : ∀ u ∈ t, (P u && !(u == a)) = P u := by
        intro u hu
        have : u ≠ a := fun h => hnd.1 (h ▸ hu)
        simp [this]
      rw [List.filter_cons, List.filter_cons]
      rw [if_neg (show ¬((P a && !(a == a)) = true) from by simp [hP])]
      rw [if_pos hP]
      rw [List.filter_congr hnot]
      simp only [List.map_cons, List.sum_cons]
      omega
    · rcases List.mem_cons.mp hv with h | h
      · exact absurd h.symm hav
      · have ih2 := ih hnd.2 h
        rw [List.filter_cons, List.filter_cons]
        by_cases hPa : P a = true
        · rw [if_pos (show (P a && !(a == v)) = true from by simp [hPa, hav])]
          rw [if_pos hPa]
          simp only [List.map_cons, List.sum_cons]
          omega
        · have hPa2 : P a = false := by simp at hPa; exact hPa
          rw [if_neg (show ¬((P a && !(a == v)) = true) from by simp [hPa2])]
          rw [if_neg (show ¬(P a = true) from by simp [hPa2])]
          exact ih2

theorem sum_indicator (l : List String) (s : String) :
    (l.map (fun u => if s == u then 1 else 0)).sum = l.count s := by
  induction l with
  | nil => simp
  | cons a t ih =>
    simp only [List.map_cons, List.sum_cons, List.count_cons, ih]
    by_cases h : s = a
    · simp [h]
      omega
    · have h1 : (s == a) = false := by simp [h]
      have h2 : ¬a = s := fun hh => h hh.symm
      simp [h1, h2]

theorem sum_src_filter (E : List EdgeJ) :
    ∀ (l : List String), l.Nodup →
      (l.map (fun u => (E.filter (fun e => e.source == u)).length)).sum ≤ E.length := by
  induction E with
  | nil => intro l _; simp
  | cons e E2 ih =>
    intro l hnd
    have hsplit : ∀ u, ((e :: E2).filter (fun e2 => e2.source == u)).length =
        (if e.source == u then 1 else 0) + (E2.filter (fun e2 => e2.source == u)).length := by
      intro u
      rw [List.filter_cons]
      by_cases h : e.source = u
      · simp [h]
        omega
      · simp [h]
    have hcongr : (l.map (fun u => ((e :: E2).filter (fun e2 => e2.source == u)).length)) =
        l.map (fun u => (if e.source == u then 1 else 0) +
          (E2.filter (fun e2 => e2.source == u)).length) := by
      apply List.map_congr_left
      intro u _
      exact hsplit u
    rw [hcongr, sum_map_add, sum_indicator]
    have hcnt : l.count e.source ≤ 1 := List.nodup_iff_count_le_one.mp hnd e.source
    have := ih l hnd
    simp only [List.length_cons]
    omega

theorem startNodes_fold_mem (nodes : List NodeJ) (edges : List EdgeJ) :
    ∀ (ns : List NodeJ) (acc : List String) (x : String),
      (x ∈ ns.foldl (fun acc n =>
        if n.type == "workflowStart" then n.id :: acc
        else if inDegree nodes edges n.id == 0 then acc ++ [n.id] else acc) acc) ↔
      (x ∈ acc ∨ ∃ n, n ∈ ns ∧ n.id = x ∧
        (n.type = "workflowStart" ∨ inDegree nodes edges n.id = 0)) := by
  intro ns
  induction ns with
  | nil =>
    intro acc x
    simp
  | cons n rest ih =>
    intro acc x
    rw [List.foldl_cons]
    by_cases hws : n.type = "workflowStart"
    · rw [if_pos (by simp [hws])]
      rw [ih]
      constructor
      · intro h
        rcases h with h | ⟨n2, hn2, hid, hc⟩
        · rcases List.mem_cons.mp h with h2 | h2
          · exact Or.inr ⟨n, List.mem_cons_self n rest, h2.symm, Or.inl hws⟩
          · exact Or.inl h2
        · exact Or.inr ⟨n2, List.mem_cons_of_mem n hn2, hid, hc⟩
      · intro h
        rcases h with h | ⟨n2, hn2, hid, hc⟩
        · exact Or.inl (List.mem_cons_of_mem n.id h)
        · rcases List.mem_cons.mp hn2 with h2 | h2
          · subst h2
            exact Or.inl (by rw [← hid]; exact List.mem_cons_self n2.id acc)
          · exact Or.inr ⟨n2, h2, hid, hc⟩
    · rw [if_neg (by simp [hws])]
      by_cases hz : inDegree nodes edges n.id = 0
      · rw [if_pos (by simp [hz])]
        rw [ih]
        constructor
        · intro h
          rcases h with h | ⟨n2, hn2, hid, hc⟩
          · rcases List.mem_append.mp h with h2 | h2
            · exact Or.inl h2
            · have : x = n.id := by simpa using h2
              exact Or.inr ⟨n, List.mem_cons_self n rest, this.symm, Or.inr hz⟩
          · exact Or.inr ⟨n2, List.mem_cons_of_mem n hn2, hid, hc⟩
        · intro h
          rcases h with h | ⟨n2, hn2, hid, hc⟩
          · exact Or.inl (List.mem_append.mpr (Or.inl h))
          · rcases List.mem_cons.mp hn2 with h2 | h2
            · subst h2
              exact Or.inl (List.mem_append.mpr (Or.inr (by simp [hid])))
            · exact Or.inr ⟨n2, h2, hid, hc⟩
      · rw [if_neg (by simp [hz])]
        rw [ih]
        constructor
        · intro h
          rcases h with h | ⟨n2, hn2, hid, hc⟩
          · exact Or.inl h
          · exact Or.inr ⟨n2, List.mem_cons_of_mem n hn2, hid, hc⟩
        · intro h
          rcases h with h | ⟨n2, hn2, hid, hc⟩
          · exact Or.inl h
          · rcases List.mem_cons.mp hn2 with h2 | h2
            · subst h2
              rcases hc with hc | hc
              · exact absurd hc hws
              · exact absurd hc hz
            · exact Or.inr ⟨n2, h2, hid, hc⟩

theorem startNodes_mem (nodes : List NodeJ) (edges : List EdgeJ) (x : String) :
    x ∈ startNodes nodes edges ↔ ∃ n, n ∈ nodes ∧ n.id = x ∧
      (n.type = "workflowStart" ∨ inDegree nodes edges n.id = 0) := by
  unfold startNodes
  rw [startNodes_fold_mem]
  simp

theorem inDegree_zero_no_edges (nodes : List NodeJ) (edges : List EdgeJ) (x : String)
    (h : inDegree nodes edges x = 0) :
    ∀ e ∈ validEdges nodes edges, e.target ≠ x := by
  unfold inDegree at h
  have hlen : ((validEdges nodes edges).filter (fun e => e.target == x)).length = 0 := by
    exact_mod_cast h
  rw [List.length_eq_zero] at hlen
  intro e he ht
  have : e ∈ (validEdges nodes edges).filter (fun e => e.target == x) := by
    rw [List.mem_filter]
    exact ⟨he, by simp [ht]⟩
  rw [hlen] at this
  simp at this

theorem validEdges_fields (nodes : List NodeJ) (edges : List EdgeJ) (e : EdgeJ)
    (he : e ∈ validEdges nodes edges) :
    e ∈ edges ∧ e.source ∈ nodeIds nodes ∧ e.target ∈ nodeIds nodes := by
  unfold validEdges at he
  rw [List.mem_filter] at he
  refine ⟨he.1, ?_, ?_⟩
  · have := he.2
    simp at this
    exact this.1
  · have := he.2
    simp at this
    exact this.2

theorem adjOf_subset (nodes : List NodeJ) (edges : List EdgeJ) (v x : String)
    (hx : x ∈ adjOf nodes edges v) : x ∈ nodeIds nodes := by
  unfold adjOf at hx
  rw [List.mem_map] at hx
  obtain ⟨e, he, hes⟩ := hx
  rw [List.mem_filter] at he
  rw [← hes]
  exact (validEdges_fields nodes edges e he.1).2.2

theorem exists_in_edge (nodes : List NodeJ) (edges : List EdgeJ) (v : String)
    (h : inDegree nodes edges v ≠ 0) :
    ∃ e ∈ validEdges nodes edges, e.target = v := by
  unfold inDegree at h
  have hne : ((validEdges nodes edges).filter (fun e => e.target == v)).length ≠ 0 := by
    intro hz
    exact h (by exact_mod_cast hz)
  have hpos : 0 < ((validEdges nodes edges).filter (fun e => e.target == v)).length :=
    Nat.pos_of_ne_zero hne
  rw [List.length_pos] at hpos
  obtain ⟨e, he⟩ := List.exists_mem_of_ne_nil _ hpos
  rw [List.mem_filter] at he
  exact ⟨e, he.1, by simpa using he.2⟩

theorem countEdges_pos (nodes : List NodeJ) (edges : List EdgeJ) (v w : String)
    (e : EdgeJ) (he : e ∈ validEdges nodes edges) (hs : e.source = v)
    (ht : e.target = w) : 1 ≤ countEdges nodes edges v w := by
  unfold countEdges
  have : e ∈ (validEdges nodes edges).filter (fun e => e.source == v && e.target == w) := by
    rw [List.mem_filter]
    exact ⟨he, by simp [hs, ht]⟩
  have hpos : 0 < ((validEdges nodes edges).filter
      (fun e => e.source == v && e.target == w)).length :=
    List.length_pos.mpr (List.ne_nil_of_mem this)
  omega

theorem kahnFinal_of_inv_empty (nodes : List NodeJ) (edges : List EdgeJ)
    (order : List String) (indeg : String → Int)
    (hinv : kahnInv nodes edges [] order indeg) :
    kahnFinal nodes edges order := by
  obtain ⟨h1, h2, _, _, _, h6, h7⟩ := hinv
  refine ⟨h1, h2, h6, ?_⟩
  intro v hv hall
  rcases h7 v hv hall with h | h
  · exact h
  · simp at h

theorem kahnMeasure_cons (nodes : List NodeJ) (edges : List EdgeJ)
    (v : String) (rest order : List String) :
    kahnMeasure nodes edges (v :: rest) order =
      kahnMeasure nodes edges rest order + 1 := by
  unfold kahnMeasure
  simp only [List.length_cons]
  omega

theorem kahnMeasure_step (nodes : List NodeJ) (edges : List EdgeJ)
    (hnd : (nodeIds nodes).Nodup) (v : String) (rest order nz : List String)
    (hvids : v ∈ nodeIds nodes) (hvord : v ∉ order)
    (hnz : nz.length ≤ (adjOf nodes edges v).length) :
    kahnMeasure nodes edges (rest ++ nz) (order ++ [v]) + 1 ≤
      kahnMeasure nodes edges (v :: rest) order := by
  unfold kahnMeasure
  have hfilter : (nodeIds nodes).filter (fun u => !((order ++ [v]).contains u)) =
      (nodeIds nodes).filter (fun u => (!(order.contains u)) && !(u == v)) := by
    apply List.filter_congr
    intro u _
    by_cases hu : u = v
    · simp [hu]
    · by_cases ho : u ∈ order <;> simp [hu, ho]
  rw [hfilter]
  have hdrop := sum_filter_drop_one (nodeIds nodes) hnd
    (fun u => (adjOf nodes edges u).length) (fun u => !(order.contains u)) v hvids
    (by simp [hvord])
  dsimp only at hdrop
  simp only [List.length_append, List.length_cons]
  omega

theorem kahnInv_init (nodes : List NodeJ) (edges : List EdgeJ) :
    kahnInv nodes edges (startNodes nodes edges) [] (inDegree nodes edges) := by
  refine ⟨List.nodup_nil, ?_, ?_, ?_, ?_, ?_, ?_⟩
  · intro x hx
    simp at hx
  · intro x hx
    obtain ⟨n, hn, hid, _⟩ := (startNodes_mem nodes edges x).mp hx
    rw [← hid]
    exact List.mem_map.mpr ⟨n, hn, rfl⟩
  · intro v
    rw [visCount_nil]
    omega
  · intro v hv
    obtain ⟨n, hn, hid, hc⟩ := (startNodes_mem nodes edges v).mp hv
    rcases hc with hc | hc
    · left
      unfold hasStartType
      rw [List.any_eq_true]
      exact ⟨n, hn, by simp [hid, hc]⟩
    · right
      intro e he ht
      have hnoe := inDegree_zero_no_edges nodes edges n.id hc e he
      rw [hid] at hnoe
      exact absurd ht hnoe
  · intro v hv
    simp at hv
  · intro v hv hall
    right
    have hzero : inDegree nodes edges v = 0 := by
      by_contra hne
      obtain ⟨e, he, ht⟩ := exists_in_edge nodes edges v hne
      have := hall e he ht
      simp at this
    obtain ⟨n, hn, hid⟩ := List.mem_map.mp hv
    rw [startNodes_mem]
    exact ⟨n, hn, hid, Or.inr (by rw [hid]; exact hzero)⟩

theorem kahnMeasure_init_le (nodes : List NodeJ) (edges : List EdgeJ)
    (hnd : (nodeIds nodes).Nodup) :
    kahnMeasure nodes edges (startNodes nodes edges) [] ≤
      (startNodes nodes edges).length + edges.length := by
  unfold kahnMeasure
  have hfilter : (nodeIds nodes).filter (fun u => !(List.contains [] u)) =
      nodeIds nodes := by
    apply List.filter_eq_self.mpr
    intro u _
    simp
  rw [hfilter]
  have hadj : (nodeIds nodes).map (fun u => (adjOf nodes edges u).length) =
      (nodeIds nodes).map (fun u =>
        ((validEdges nodes edges).filter (fun e => e.source == u)).length) := by
    apply List.map_congr_left
    intro u _
    unfold adjOf
    rw [List.length_map]
  rw [hadj]
  have hsum := sum_src_filter (validEdges nodes edges) (nodeIds nodes) hnd
  have hvle : (validEdges nodes edges).length ≤ edges.length := by
    unfold validEdges
    exact List.length_filter_le _ _
  omega

theorem kahn_master (nodes : List NodeJ) (edges : List EdgeJ)
    (hnd : (nodeIds nodes).Nodup) :
    ∀ (fuel : Nat) (queue order : List String) (indeg : String → Int),
      kahnInv nodes edges queue order indeg →
      kahnMeasure nodes edges queue order ≤ fuel →
      kahnFinal nodes edges (kahnLoop (adjOf nodes edges) fuel queue order indeg) := by
  intro fuel
  induction fuel with
  | zero =>
    intro queue order indeg hinv hm
    have hq : queue = [] := by
      cases queue with
      | nil => rfl
      | cons a t =>
        rw [kahnMeasure_cons] at hm
        omega
    subst hq
    exact kahnFinal_of_inv_empty nodes edges order indeg hinv
  | succ f ih =>
    intro queue order indeg hinv hm
    cases queue with
    | nil =>
      exact kahnFinal_of_inv_empty nodes edges order indeg hinv
    | cons v rest =>
      by_cases hvis : v ∈ order
      · have hcont : order.contains v = true := by simpa using hvis
        show kahnFinal nodes edges
          (kahnLoop (adjOf nodes edges) (f + 1) (v :: rest) order indeg)
        rw [show kahnLoop (adjOf nodes edges) (f + 1) (v :: rest) order indeg =
            kahnLoop (adjOf nodes edges) f rest order indeg from by
          simp only [kahnLoop]
          rw [if_pos hcont]]
        apply ih rest order indeg
        · obtain ⟨h1, h2, h3, h4, h5, h6, h7⟩ := hinv
          refine ⟨h1, h2, ?_, h4, ?_, h6, ?_⟩
          · intro x hx
            exact h3 x (List.mem_cons_of_mem v hx)
          · intro x hx
            exact h5 x (List.mem_cons_of_mem v hx)
          · intro w hw hall
            rcases h7 w hw hall with h | h
            · exact Or.inl h
            · rcases List.mem_cons.mp h with h | h
              · exact Or.inl (h ▸ hvis)
              · exact Or.inr h
        · rw [kahnMeasure_cons] at hm
          omega
      · have hcont : ¬(order.contains v = true) := by simpa using hvis
        obtain ⟨hnodup, hordids, hqids, hindeg, hqsound, htopo, hcomplete⟩ := hinv
        have hvids : v ∈ nodeIds nodes := hqids v (List.mem_cons_self v rest)
        show kahnFinal nodes edges
          (kahnLoop (adjOf nodes edges) (f + 1) (v :: rest) order indeg)
        rw [show kahnLoop (adjOf nodes edges) (f + 1) (v :: rest) order indeg =
            kahnLoop (adjOf nodes edges) f
              (rest ++ (processNeighbors (adjOf nodes edges v) indeg).2)
              (order ++ [v]) (processNeighbors (adjOf nodes edges v) indeg).1 from by
          simp only [kahnLoop]
          rw [if_neg hcont]]
        have hnz_mem : ∀ x,
            x ∈ (processNeighbors (adjOf nodes edges v) indeg).2 ↔
              1 ≤ indeg x ∧ indeg x ≤ (countEdges nodes edges v x : Int) := by
          intro x
          rw [processNeighbors_mem, adj_count]
        have hindeg2 : ∀ x, (processNeighbors (adjOf nodes edges v) indeg).1 x =
            inDegree nodes edges x - visCount nodes edges (order ++ [v]) x := by
          intro x
          rw [processNeighbors_indeg, adj_count, hindeg x,
            visCount_append nodes edges order v x hvis]
          ring
        apply ih
        · refine ⟨?_, ?_, ?_, hindeg2, ?_, ?_, ?_⟩
          · rw [List.nodup_append]
            refine ⟨hnodup, List.nodup_singleton v, ?_⟩
            intro a ha hav
            rw [List.mem_singleton] at hav
            exact hvis (hav ▸ ha)
          · intro x hx
            rcases List.mem_append.mp hx with h | h
            · exact hordids x h
            · rw [List.mem_singleton] at h
              exact h ▸ hvids
          · intro x hx
            rcases List.mem_append.mp hx with h | h
            · exact hqids x (List.mem_cons_of_mem v h)
            · have hcnt := ((hnz_mem x).mp h).2
              have hge := ((hnz_mem x).mp h).1
              have hposc : 0 < (adjOf nodes edges v).count x := by
                rw [adj_count]
                omega
              exact adjOf_subset nodes edges v x (List.count_pos_iff.mp hposc)
          · intro x hx
            rcases List.mem_append.mp hx with h | h
            · rcases hqsound x (List.mem_cons_of_mem v h) with hws | hall
              · exact Or.inl hws
              · right
                intro e he ht
                exact List.mem_append.mpr (Or.inl (hall e he ht))
            · right
              have h1 := ((hnz_mem x).mp h).1
              have h2 := ((hnz_mem x).mp h).2
              rw [hindeg x] at h1 h2
              have hsrc := allSources_of_count nodes edges order v x hvis (by omega)
              intro e he ht
              rcases hsrc e he ht with hs | hs
              · exact List.mem_append.mpr (Or.inl hs)
              · exact List.mem_append.mpr (Or.inr (by simp [hs]))
          · intro w hw
            rcases List.mem_append.mp hw with h | h
            · rcases htopo w h with hws | hsub
              · exact Or.inl hws
              · right
                intro e he ht
                exact (hsub e he ht).trans (List.sublist_append_left order [v])
            · rw [List.mem_singleton] at h
              subst h
              rcases hqsound w (List.mem_cons_self w rest) with hws | hall
              · exact Or.inl hws
              · right
                intro e he ht
                have hsrc : e.source ∈ order := hall e he ht
                have h1 : List.Sublist [e.source] order := List.singleton_sublist.mpr hsrc
                have h2 : List.Sublist [w] [w] := List.Sublist.refl [w]
                exact h1.append h2
          · intro w hw hall
            by_cases hallold : allSourcesIn nodes edges order w
            · rcases hcomplete w hw hallold with h | h
              · exact Or.inl (List.mem_append.mpr (Or.inl h))
              · rcases List.mem_cons.mp h with h | h
                · exact Or.inl (List.mem_append.mpr (Or.inr (by simp [h])))
                · exact Or.inr (List.mem_append.mpr (Or.inl h))
            · right
              apply List.mem_append.mpr
              right
              unfold allSourcesIn at hallold
              push_neg at hallold
              obtain ⟨e, he, ht, hsrc⟩ := hallold
              have hsv : e.source = v := by
                rcases List.mem_append.mp (hall e he ht) with h | h
                · exact absurd h hsrc
                · simpa using h
              have hallv : ∀ e2 ∈ validEdges nodes edges, e2.target = w →
                  e2.source ∈ order ∨ e2.source = v := by
                intro e2 he2 ht2
                rcases List.mem_append.mp (hall e2 he2 ht2) with h | h
                · exact Or.inl h
                · exact Or.inr (by simpa using h)
              have hsplit := inDegree_split nodes edges order v w hvis hallv
              have hcpos := countEdges_pos nodes edges v w e he hsv ht
              rw [hnz_mem w]
              rw [hindeg w]
              constructor
              · have hvcnn : (0 : Int) ≤ visCount nodes edges order w := by
                  unfold visCount
                  positivity
                omega
              · omega
        · have hnzlen := processNeighbors_len (adjOf nodes edges v) indeg
          have hstep := kahnMeasure_step nodes edges hnd v rest order
            (processNeighbors (adjOf nodes edges v) indeg).2 hvids hvis hnzlen
          rw [kahnMeasure_cons] at hstep hm
          omega

theorem getExecutionOrder_final (nodes : List NodeJ) (edges : List EdgeJ)
    (hnd : (nodeIds nodes).Nodup) :
    kahnFinal nodes edges (getExecutionOrder nodes edges) := by
  unfold getExecutionOrder
  apply kahn_master nodes edges hnd
  · exact kahnInv_init nodes edges
  · exact le_trans (kahnMeasure_init_le nodes edges hnd) (by omega)

theorem kahn_complete (nodes : List NodeJ) (edges : List EdgeJ)
    (hnd : (nodeIds nodes).Nodup) (hacyc : Acyclic nodes edges) :
    ∀ v ∈ nodeIds nodes, v ∈ getExecutionOrder nodes edges := by
  have hfin := getExecutionOrder_final nodes edges hnd
  set ord := getExecutionOrder nodes edges with hord
  -- well-founded recursion over the transitive closure of the edge relation,
  -- restricted to the finite set of node ids
  let S := { x : String // x ∈ (nodeIds nodes).toFinset }
  let r : S → S → Prop := fun a b => Relation.TransGen (EdgeRel nodes edges) a.1 b.1
  have htrans : Transitive r := fun a b c hab hbc => Relation.TransGen.trans hab hbc
  have hirr : Irreflexive r := fun a ha => hacyc a.1 ha
  have hwf : WellFounded r := by
    letI : IsTrans S r := ⟨fun a b c hab hbc => htrans hab hbc⟩
    letI : IsIrrefl S r := ⟨hirr⟩
    exact Finite.wellFounded_of_trans_of_irrefl r
  have hmain : ∀ s : S, s.1 ∈ ord := by
    intro s
    induction s using hwf.induction with
    | _ s ihs =>
      have hmem : s.1 ∈ nodeIds nodes := List.mem_toFinset.mp s.2
      apply hfin.2.2.2 s.1 hmem
      intro e he ht
      have hsrc : e.source ∈ nodeIds nodes := (validEdges_fields nodes edges e he).2.1
      have hrel : Relation.TransGen (EdgeRel nodes edges) e.source s.1 :=
        Relation.TransGen.single ⟨e, he, rfl, ht⟩
      exact ihs ⟨e.source, List.mem_toFinset.mpr hsrc⟩ hrel
  intro v hv
  exact hmain ⟨v, List.mem_toFinset.mpr hv⟩

/-- Claim C1 counterexample: an acyclic graph with an edge into a
workflowStart node.  The seed queue puts the workflowStart node first
even though its in-degree is one, so it is emitted before its
predecessor and the edge (a, s) is not respected by the order. -/
theorem claim_C1_counterexample :
    (nodeIds [⟨"a", "promptBlock", none⟩, ⟨"s", "workflowStart", none⟩]).Nodup ∧
    Acyclic [⟨"a", "promptBlock", none⟩, ⟨"s", "workflowStart", none⟩]
      [⟨"a", "s"⟩] ∧
    (⟨"a", "s"⟩ : EdgeJ) ∈ [(⟨"a", "s"⟩ : EdgeJ)] ∧
    "a" ∈ nodeIds [⟨"a", "promptBlock", none⟩, ⟨"s", "workflowStart", none⟩] ∧
    "s" ∈ nodeIds [⟨"a", "promptBlock", none⟩, ⟨"s", "workflowStart", none⟩] ∧
    getExecutionOrder [⟨"a", "promptBlock", none⟩, ⟨"s", "workflowStart", none⟩]
      [⟨"a", "s"⟩] = ["s", "a"] ∧
    ¬ List.Sublist ["a", "s"]
      (getExecutionOrder [⟨"a", "promptBlock", none⟩, ⟨"s", "workflowStart", none⟩]
        [⟨"a", "s"⟩]) := by
  refine ⟨by decide, ?_, by decide, by decide, by decide, by decide, by decide⟩
  intro v hv
  have hval : validEdges
      [⟨"a", "promptBlock", none⟩, ⟨"s", "workflowStart", none⟩]
      [⟨"a", "s"⟩] = [⟨"a", "s"⟩] := by decide
  have hchar : ∀ x y, Relation.TransGen
      (EdgeRel [⟨"a", "promptBlock", none⟩, ⟨"s", "workflowStart", none⟩]
        [⟨"a", "s"⟩]) x y → x = "a" ∧ y = "s" := by
    intro x y hxy
    induction hxy with
    | single h =>
      obtain ⟨e, he, hs, ht⟩ := h
      rw [hval] at he
      rw [List.mem_singleton] at he
      subst he
      exact ⟨hs.symm, ht.symm⟩
    | tail hab hlast ih =>
      obtain ⟨e, he, hs, ht⟩ := hlast
      rw [hval] at he
      rw [List.mem_singleton] at he
      subst he
      have h1 := ih.2
      rw [← hs] at h1
      simp at h1
  have := hchar v v hv
  have h1 := this.1
  have h2 := this.2
  rw [h1] at h2
  simp at h2

/-- Claim C1 (amended): for every acyclic workflow graph whose node ids
are distinct, the computed execution order contains every node exactly
once, and every edge between nodes of the graph whose target is not a
workflowStart node has its source before its target in the order.  (The
original claim fails when an edge points into a workflowStart node,
because the seed queue always puts workflowStart nodes first; see the
counterexample.) -/
theorem claim_C1 (nodes : List NodeJ) (edges : List EdgeJ)
    (hnd : (nodeIds nodes).Nodup) (hacyc : Acyclic nodes edges) :
    (getExecutionOrder nodes edges).Nodup ∧
    (∀ nid, nid ∈ getExecutionOrder nodes edges ↔ nid ∈ nodeIds nodes) ∧
    (∀ e ∈ edges, e.source ∈ nodeIds nodes → e.target ∈ nodeIds nodes →
      hasStartType nodes e.target = false →
      List.Sublist [e.source, e.target] (getExecutionOrder nodes edges)) := by
  have hfin := getExecutionOrder_final nodes edges hnd
  refine ⟨hfin.1, ?_, ?_⟩
  · intro nid
    exact ⟨fun h => hfin.2.1 nid h,
      fun h => kahn_complete nodes edges hnd hacyc nid h⟩
  · intro e he hs ht hws
    have hev : e ∈ validEdges nodes edges := by
      unfold validEdges
      rw [List.mem_filter]
      exact ⟨he, by simp [hs, ht]⟩
    have htin : e.target ∈ getExecutionOrder nodes edges :=
      kahn_complete nodes edges hnd hacyc e.target ht
    rcases hfin.2.2.1 e.target htin with h | h
    · rw [hws] at h
      exact absurd h (by simp)
    · exact h e hev rfl

/-- Witness for claim C1: the linear graph start to prompt to output. -/
theorem claim_C1_witness :
    (getExecutionOrder
      [⟨"s", "workflowStart", none⟩, ⟨"p", "promptBlock", none⟩,
        ⟨"o", "output", none⟩] [⟨"s", "p"⟩, ⟨"p", "o"⟩]).Nodup ∧
    (∀ nid, nid ∈ getExecutionOrder
      [⟨"s", "workflowStart", none⟩, ⟨"p", "promptBlock", none⟩,
        ⟨"o", "output", none⟩] [⟨"s", "p"⟩, ⟨"p", "o"⟩] ↔
      nid ∈ nodeIds [⟨"s", "workflowStart", none⟩, ⟨"p", "promptBlock", none⟩,
        ⟨"o", "output", none⟩]) ∧
    (∀ e ∈ [(⟨"s", "p"⟩ : EdgeJ), ⟨"p", "o"⟩],
      e.source ∈ nodeIds [⟨"s", "workflowStart", none⟩,
        ⟨"p", "promptBlock", none⟩, ⟨"o", "output", none⟩] →
      e.target ∈ nodeIds [⟨"s", "workflowStart", none⟩,
        ⟨"p", "promptBlock", none⟩, ⟨"o", "output", none⟩] →
      hasStartType [⟨"s", "workflowStart", none⟩, ⟨"p", "promptBlock", none⟩,
        ⟨"o", "output", none⟩] e.target = false →
      List.Sublist [e.source, e.target]
        (getExecutionOrder
          [⟨"s", "workflowStart", none⟩, ⟨"p", "promptBlock", none⟩,
            ⟨"o", "output", none⟩] [⟨"s", "p"⟩, ⟨"p", "o"⟩])) :=
  claim_C1
    [⟨"s", "workflowStart", none⟩, ⟨"p", "promptBlock", none⟩,
      ⟨"o", "output", none⟩] [⟨"s", "p"⟩, ⟨"p", "o"⟩]
    (by decide)
    (by
      intro v hv
      have hval : validEdges
          [⟨"s", "workflowStart", none⟩, ⟨"p", "promptBlock", none⟩,
            ⟨"o", "output", none⟩] [⟨"s", "p"⟩, ⟨"p", "o"⟩] =
          [⟨"s", "p"⟩, ⟨"p", "o"⟩] := by decide
      have hchar : ∀ x y, Relation.TransGen
          (EdgeRel [⟨"s", "workflowStart", none⟩, ⟨"p", "promptBlock", none⟩,
            ⟨"o", "output", none⟩] [⟨"s", "p"⟩, ⟨"p", "o"⟩]) x y →
          (x = "s" ∧ y = "p") ∨ (x = "p" ∧ y = "o") ∨ (x = "s" ∧ y = "o") := by
        intro x y hxy
        induction hxy with
        | single h =>
          obtain ⟨e, he, hsrc, htgt⟩ := h
          rw [hval] at he
          rcases List.mem_cons.mp he with he1 | he1
          · subst he1
            exact Or.inl ⟨hsrc.symm, htgt.symm⟩
          · rw [List.mem_singleton] at he1
            subst he1
            exact Or.inr (Or.inl ⟨hsrc.symm, htgt.symm⟩)
        | tail hab hlast ih =>
          obtain ⟨e, he, hsrc, htgt⟩ := hlast
          rw [hval] at he
          rcases List.mem_cons.mp he with he1 | he1
          · subst he1
            rcases ih with ⟨h1, h2⟩ | ⟨h1, h2⟩ | ⟨h1, h2⟩ <;>
              (rw [h2] at hsrc; simp_all)
          · rw [List.mem_singleton] at he1
            subst he1
            rcases ih with ⟨h1, h2⟩ | ⟨h1, h2⟩ | ⟨h1, h2⟩ <;>
              (rw [h2] at hsrc; simp_all)
      have := hchar v v hv
      rcases this with ⟨h1, h2⟩ | ⟨h1, h2⟩ | ⟨h1, h2⟩ <;> (rw [h1] at h2; simp at h2))

theorem updateAssoc_fst {α : Type} (l : List (String × α)) (k : String) (v : α) :
    ∀ pr ∈ updateAssoc l k v, pr.1 = k ∨ pr ∈ l := by
  intro pr hpr
  unfold updateAssoc at hpr
  split at hpr
  · rw [List.mem_map] at hpr
    obtain ⟨q, hq, hqe⟩ := hpr
    by_cases hqk : (q.1 == k) = true
    · rw [if_pos hqk] at hqe
      left
      rw [← hqe]
    · rw [if_neg hqk] at hqe
      right
      rw [← hqe]
      exact hq
  · rcases List.mem_append.mp hpr with h | h
    · exact Or.inr h
    · left
      rw [List.mem_singleton] at h
      rw [h]

theorem runLoop_C8_inv (nodes : List NodeJ) (env : String → Outcome) :
    ∀ (suffix : List String) (i : Nat) (p : PState) (f : FState)
      (arts : List Artifact) (tr : List PState),
      (∀ nid ∈ suffix, nid ∈ p.execution_order) →
      i + suffix.length = p.execution_order.length →
      (∀ q ∈ tr, (∀ pr ∈ q.node_outputs, pr.1 ∈ q.execution_order) ∧
        (q.execution_order ≠ [] → q.current_index < q.execution_order.length)) →
      ((∀ pr ∈ p.node_outputs, pr.1 ∈ p.execution_order) ∧
        (p.execution_order ≠ [] → p.current_index < p.execution_order.length)) →
      ∀ q ∈ (runLoop nodes env i suffix p f arts tr).trace,
        (∀ pr ∈ q.node_outputs, pr.1 ∈ q.execution_order) ∧
        (q.execution_order ≠ [] → q.current_index < q.execution_order.length) := by
  intro suffix
  induction suffix with
  | nil =>
    intro i p f arts tr hmem hlen htr hp q hq
    simp only [runLoop] at hq
    rcases List.mem_append.mp hq with h | h
    · exact htr q h
    · rw [List.mem_singleton] at h
      subst h
      exact hp
  | cons nid rest ih =>
    intro i p f arts tr hmem hlen htr hp q hq
    simp only [runLoop] at hq
    cases hf : nodes.find? (fun n => n.id == nid) with
    | none =>
      rw [hf] at hq
      refine ih (i + 1) p f arts (tr ++ [p]) ?_ ?_ ?_ hp q hq
      · intro x hx
        exact hmem x (List.mem_cons_of_mem nid hx)
      · simp only [List.length_cons] at hlen
        omega
      · intro q2 hq2
        rcases List.mem_append.mp hq2 with h | h
        · exact htr q2 h
        · rw [List.mem_singleton] at h
          subst h
          exact hp
    | some node =>
      rw [hf] at hq
      dsimp only at hq
      by_cases hex : executableTypes.contains node.type = true
      · rw [if_pos hex] at hq
        have hidx : i < p.execution_order.length := by
          simp only [List.length_cons] at hlen
          omega
        cases he : env nid with
        | err m =>
          rw [he] at hq
          rcases List.mem_append.mp hq with h | h
          · exact htr q h
          · rw [List.mem_singleton] at h
            subst h
            refine ⟨hp.1, fun _ => hidx⟩
        | ok v =>
          rw [he] at hq
          refine ih (i + 1) _ _ _ (tr ++ [_]) ?_ ?_ ?_ ?_ q hq
          · intro x hx
            exact hmem x (List.mem_cons_of_mem nid hx)
          · simp only [List.length_cons] at hlen
            show i + 1 + rest.length = p.execution_order.length
            omega
          · intro q2 hq2
            rcases List.mem_append.mp hq2 with h | h
            · exact htr q2 h
            · rw [List.mem_singleton] at h
              subst h
              constructor
              · intro pr hpr
                rcases updateAssoc_fst _ _ _ pr hpr with h2 | h2
                · rw [h2]
                  exact hmem nid (List.mem_cons_self nid rest)
                · exact hp.1 pr h2
              · intro _
                exact hidx
          · constructor
            · intro pr hpr
              rcases updateAssoc_fst _ _ _ pr hpr with h2 | h2
              · rw [h2]
                exact hmem nid (List.mem_cons_self nid rest)
              · exact hp.1 pr h2
            · intro _
              exact hidx
      · rw [if_neg hex] at hq
        refine ih (i + 1) p f arts (tr ++ [p]) ?_ ?_ ?_ hp q hq
        · intro x hx
          exact hmem x (List.mem_cons_of_mem nid hx)
        · simp only [List.length_cons] at hlen
          omega
        · intro q2 hq2
          rcases List.mem_append.mp hq2 with h | h
          · exact htr q2 h
          · rw [List.mem_singleton] at h
            subst h
            exact hp

/-- Claim C8 counterexample: running a workflow with no nodes gives an
empty execution order while the pipeline state is running with
current_index 0, which is not a valid index into the empty order. -/
theorem claim_C8_counterexample :
    ∃ q ∈ (runPipeline [] [] (fun _ => Outcome.ok Val.vNull)).trace,
      q.status = FStatus.running ∧
        ¬(q.current_index < q.execution_order.length) := by
  refine ⟨{ status := FStatus.running
            execution_order := []
            current_index := 0
            node_outputs := []
            tasks := [] }, ?_, rfl, by decide⟩
  decide

/-- Claim C8 (amended): at every point of a pipeline run while the
pipeline status is running, the keys of node_outputs are node ids of the
execution order, and whenever the execution order is nonempty the
current index is a valid index into it.  (With an empty workflow the
order is empty and current_index 0 is not a valid index; see the
counterexample.) -/
theorem claim_C8 (nodes : List NodeJ) (edges : List EdgeJ) (env : String → Outcome) :
    ∀ q ∈ (runPipeline nodes edges env).trace, q.status = FStatus.running →
      (∀ pr ∈ q.node_outputs, pr.1 ∈ q.execution_order) ∧
      (q.execution_order ≠ [] → q.current_index < q.execution_order.length) := by
  intro q hq _
  have hrp : runPipeline nodes edges env =
      runLoop nodes env 0 (getExecutionOrder nodes edges)
        { status := FStatus.running
          execution_order := getExecutionOrder nodes edges
          current_index := 0
          node_outputs := []
          tasks := [] }
        { status := FStatus.running
          current_node_id := none
          node_results := [] } []
        [{ status := FStatus.running
           execution_order := getExecutionOrder nodes edges
           current_index := 0
           node_outputs := []
           tasks := [] }] := rfl
  rw [hrp] at hq
  refine runLoop_C8_inv nodes env (getExecutionOrder nodes edges) 0
    { status := FStatus.running
      execution_order := getExecutionOrder nodes edges
      current_index := 0
      node_outputs := []
      tasks := [] }
    { status := FStatus.running
      current_node_id := none
      node_results := [] } []
    [{ status := FStatus.running
       execution_order := getExecutionOrder nodes edges
       current_index := 0
       node_outputs := []
       tasks := [] }]
    (fun nid h => h) (by simp) ?_ ?_ q hq
  · intro q2 hq2
    rw [List.mem_singleton] at hq2
    subst hq2
    constructor
    · intro pr hpr
      simp at hpr
    · intro hne
      exact List.length_pos.mpr hne
  · constructor
    · intro pr hpr
      simp at hpr
    · intro hne
      exact List.length_pos.mpr hne

/-- Witness for claim C8: the initial pipeline state of a run of the
linear start-prompt-output graph. -/
theorem claim_C8_witness :
    (∀ pr ∈ ({ status := FStatus.running
               execution_order := ["s", "p", "o"]
               current_index := 0
               node_outputs := []
               tasks := [] : PState }).node_outputs,
      pr.1 ∈ ({ status := FStatus.running
                execution_order := ["s", "p", "o"]
                current_index := 0
                node_outputs := []
                tasks := [] : PState }).execution_order) ∧
    (({ status := FStatus.running
        execution_order := ["s", "p", "o"]
        current_index := 0
        node_outputs := []
        tasks := [] : PState }).execution_order ≠ [] →
      ({ status := FStatus.running
         execution_order := ["s", "p", "o"]
         current_index := 0
         node_outputs := []
         tasks := [] : PState }).current_index <
        ({ status := FStatus.running
           execution_order := ["s", "p", "o"]
           current_index := 0
           node_outputs := []
           tasks := [] : PState }).execution_order.length) :=
  claim_C8
    [⟨"s", "workflowStart", none⟩, ⟨"p", "promptBlock", none⟩,
      ⟨"o", "output", none⟩] [⟨"s", "p"⟩, ⟨"p", "o"⟩]
    (fun _ => Outcome.ok Val.vNull)
    { status := FStatus.running
      execution_order := ["s", "p", "o"]
      current_index := 0
      node_outputs := []
      tasks := [] }
    (by decide) rfl

theorem runLoop_artifacts (nodes : List NodeJ) (env : String → Outcome) :
    ∀ (suffix : List String) (i : Nat) (p : PState) (f : FState)
      (arts : List Artifact) (tr : List PState),
      (runLoop nodes env i suffix p f arts tr).artifacts =
        arts ++ artifactsFrom nodes env i suffix := by
  intro suffix
  induction suffix with
  | nil => intro i p f arts tr; simp [runLoop, artifactsFrom]
  | cons nid rest ih =>
    intro i p f arts tr
    simp only [runLoop, artifactsFrom]
    cases hf : nodes.find? (fun n => n.id == nid) with
    | none =>
      rw [show findNode nodes nid = none from hf]
      exact ih (i + 1) p f arts (tr ++ [p])
    | some node =>
      rw [show findNode nodes nid = some node from hf]
      dsimp only
      by_cases hex : executableTypes.contains node.type = true
      · rw [if_pos hex, if_pos hex]
        cases he : env nid with
        | err m => simp
        | ok v =>
          rw [ih]
          simp
      · rw [if_neg hex, if_neg hex]
        exact ih (i + 1) p f arts (tr ++ [p])

theorem artifactsFrom_mem (nodes : List NodeJ) (env : String → Outcome) :
    ∀ (suffix : List String) (i : Nat) (a : Artifact),
      a ∈ artifactsFrom nodes env i suffix →
      ∃ k node, suffix[k]? = some a.node_id ∧
        findNode nodes a.node_id = some node ∧
        executableTypes.contains node.type = true ∧
        (∃ v, env a.node_id = Outcome.ok v) ∧
        a.step = i + k + 1 ∧
        a.filename = mkFilename (i + k + 1) (node.label.getD a.node_id) := by
  intro suffix
  induction suffix with
  | nil => intro i a ha; simp [artifactsFrom] at ha
  | cons nid rest ih =>
    intro i a ha
    simp only [artifactsFrom] at ha
    cases hf : findNode nodes nid with
    | none =>
      rw [hf] at ha
      dsimp only at ha
      obtain ⟨k, node, h1, h2, h3, h4, h5, h6⟩ := ih (i + 1) a ha
      exact ⟨k + 1, node, by simpa using h1, h2, h3, h4, by omega,
        by rw [h6]; congr 1; omega⟩
    | some node =>
      rw [hf] at ha
      dsimp only at ha
      by_cases hex : executableTypes.contains node.type = true
      · rw [if_pos hex] at ha
        cases he : env nid with
        | err m =>
          rw [he] at ha
          simp at ha
        | ok v =>
          rw [he] at ha
          rcases List.mem_cons.mp ha with ha1 | ha1
          · subst ha1
            exact ⟨0, node, by simp, hf, hex, ⟨v, he⟩, by simp, by simp⟩
          · obtain ⟨k, node2, h1, h2, h3, h4, h5, h6⟩ := ih (i + 1) a ha1
            exact ⟨k + 1, node2, by simpa using h1, h2, h3, h4, by omega,
              by rw [h6]; congr 1; omega⟩
      · rw [if_neg hex] at ha
        obtain ⟨k, node2, h1, h2, h3, h4, h5, h6⟩ := ih (i + 1) a ha
        exact ⟨k + 1, node2, by simpa using h1, h2, h3, h4, by omega,
          by rw [h6]; congr 1; omega⟩

theorem drop_cons_get (l : List String) (i : Nat) (a : String) (t : List String)
    (h : l.drop i = a :: t) : l[i]? = some a ∧ t = l.drop (i + 1) := by
  constructor
  · have h0 : (l.drop i)[0]? = some a := by rw [h]; simp
    rw [List.getElem?_drop] at h0
    simpa using h0
  · have h1 : (l.drop i).drop 1 = t := by rw [h]; rfl
    rw [List.drop_drop] at h1
    rw [← h1, Nat.add_comm]

theorem artifactsFrom_head_gap (nodes : List NodeJ) (env : String → Outcome)
    (orderF : List String) :
    ∀ (suffix : List String) (i : Nat), suffix = orderF.drop i →
      ∀ b, (artifactsFrom nodes env i suffix).head? = some b →
        ∀ j nid, i ≤ j → j + 1 < b.step → orderF[j]? = some nid →
          executedOk nodes env nid = false := by
  intro suffix
  induction suffix with
  | nil =>
    intro i hdrop b hb
    simp [artifactsFrom] at hb
  | cons nid0 rest ih =>
    intro i hdrop b hb j nid hij hjb hj
    have hfacts := drop_cons_get orderF i nid0 rest hdrop.symm
    simp only [artifactsFrom] at hb
    cases hf : findNode nodes nid0 with
    | none =>
      rw [hf] at hb
      dsimp only at hb
      by_cases hji : j = i
      · subst hji
        have hninid : nid = nid0 := by
          rw [hfacts.1] at hj
          exact (Option.some.injEq _ _ ▸ hj.symm)
        have hisex : isExecuted nodes nid0 = false := by
          unfold isExecuted
          rw [hf]
        unfold executedOk
        rw [hninid, hisex]
        rfl
      · exact ih (i + 1) hfacts.2 b hb j nid (by omega) hjb hj
    | some node =>
      rw [hf] at hb
      dsimp only at hb
      by_cases hex : executableTypes.contains node.type = true
      · rw [if_pos hex] at hb
        cases he : env nid0 with
        | err m =>
          rw [he] at hb
          simp at hb
        | ok v =>
          rw [he] at hb
          have hbart : b = { step := i + 1
                             node_id := nid0
                             filename := mkFilename (i + 1) (node.label.getD nid0) } := by
            simpa using hb.symm
          have hbs : b.step = i + 1 := by rw [hbart]
          omega
      · rw [if_neg hex] at hb
        by_cases hji : j = i
        · subst hji
          have hninid : nid = nid0 := by
            rw [hfacts.1] at hj
            exact (Option.some.injEq _ _ ▸ hj.symm)
          have hisex : isExecuted nodes nid0 = false := by
            unfold isExecuted
            rw [hf]
            simpa using hex
          unfold executedOk
          rw [hninid, hisex]
          rfl
        · exact ih (i + 1) hfacts.2 b hb j nid (by omega) hjb hj

theorem artifactsFrom_chain (nodes : List NodeJ) (env : String → Outcome)
    (orderF : List String) :
    ∀ (suffix : List String) (i : Nat), suffix = orderF.drop i →
      List.Chain' (fun a b => a.step < b.step ∧
        ∀ j nid, a.step ≤ j → j + 1 < b.step → orderF[j]? = some nid →
          executedOk nodes env nid = false)
        (artifactsFrom nodes env i suffix) := by
  intro suffix
  induction suffix with
  | nil =>
    intro i _
    simp [artifactsFrom]
  | cons nid0 rest ih =>
    intro i hdrop
    have hfacts := drop_cons_get orderF i nid0 rest hdrop.symm
    simp only [artifactsFrom]
    cases hf : findNode nodes nid0 with
    | none =>
      dsimp only
      exact ih (i + 1) hfacts.2
    | some node =>
      dsimp only
      by_cases hex : executableTypes.contains node.type = true
      · rw [if_pos hex]
        cases he : env nid0 with
        | err m => simp
        | ok v =>
          rw [List.chain'_cons']
          constructor
          · intro b hb
            have hbsome : (artifactsFrom nodes env (i + 1) rest).head? = some b := hb
            have hbmem : b ∈ artifactsFrom nodes env (i + 1) rest :=
              List.mem_of_mem_head? hb
            obtain ⟨k, node2, h1, h2, h3, h4, h5, h6⟩ :=
              artifactsFrom_mem nodes env rest (i + 1) b hbmem
            constructor
            · show (i + 1 : Nat) < b.step
              omega
            · intro j nid haj hjb hj
              exact artifactsFrom_head_gap nodes env orderF rest (i + 1) hfacts.2
                b hbsome j nid (by exact haj) hjb hj
          · exact ih (i + 1) hfacts.2
      · rw [if_neg hex]
        exact ih (i + 1) hfacts.2

/-- Claim C10: each artifact written during a run carries a step number
equal to one plus its node's position in the full computed execution
order (which counts node types the executor does not execute), its
filename encodes that step number and the sanitized label, no artifact
is written for a skipped node id, and along the artifact list steps
strictly increase with every order position strictly between two
adjacent artifacts holding a node that was not dispatched successfully
(so interleaved non-executable nodes yield non-consecutive steps). -/
theorem claim_C10 (nodes : List NodeJ) (edges : List EdgeJ) (env : String → Outcome) :
    (∀ a ∈ (runPipeline nodes edges env).artifacts,
      ∃ k node, (getExecutionOrder nodes edges)[k]? = some a.node_id ∧
        findNode nodes a.node_id = some node ∧
        executableTypes.contains node.type = true ∧
        a.step = k + 1 ∧
        a.filename = mkFilename (k + 1) (node.label.getD a.node_id)) ∧
    (∀ nid, isExecuted nodes nid = false →
      ∀ a ∈ (runPipeline nodes edges env).artifacts, a.node_id ≠ nid) ∧
    List.Chain' (fun a b => a.step < b.step ∧
      ∀ j nid, a.step ≤ j → j + 1 < b.step →
        (getExecutionOrder nodes edges)[j]? = some nid →
        executedOk nodes env nid = false)
      (runPipeline nodes edges env).artifacts := by
  have hart : (runPipeline nodes edges env).artifacts =
      artifactsFrom nodes env 0 (getExecutionOrder nodes edges) := by
    show (runLoop nodes env 0 (getExecutionOrder nodes edges)
      { status := FStatus.running
        execution_order := getExecutionOrder nodes edges
        current_index := 0
        node_outputs := []
        tasks := [] }
      { status := FStatus.running
        current_node_id := none
        node_results := [] } []
      [{ status := FStatus.running
         execution_order := getExecutionOrder nodes edges
         current_index := 0
         node_outputs := []
         tasks := [] }]).artifacts = _
    rw [runLoop_artifacts]
    simp
  refine ⟨?_, ?_, ?_⟩
  · intro a ha
    rw [hart] at ha
    obtain ⟨k, node, h1, h2, h3, h4, h5, h6⟩ :=
      artifactsFrom_mem nodes env (getExecutionOrder nodes edges) 0 a ha
    refine ⟨k, node, h1, h2, h3, by omega, ?_⟩
    rw [h6]
    congr 1
    omega
  · intro nid hni a ha hna
    rw [hart] at ha
    obtain ⟨k, node, h1, h2, h3, h4, h5, h6⟩ :=
      artifactsFrom_mem nodes env (getExecutionOrder nodes edges) 0 a ha
    have : isExecuted nodes a.node_id = true := by
      unfold isExecuted
      rw [h2]
      exact h3
    rw [hna] at this
    rw [this] at hni
    exact Bool.noConfusion hni
  · rw [hart]
    exact artifactsFrom_chain nodes env (getExecutionOrder nodes edges)
      (getExecutionOrder nodes edges) 0 (List.drop_zero _).symm

/-- Witness for claim C10: in the linear start-prompt-output run, the
only artifact belongs to the prompt node at order position 1 and so
carries step number 2, skipping the step of the start marker. -/
theorem claim_C10_witness :
    ∃ k node, (getExecutionOrder
      [⟨"s", "workflowStart", none⟩, ⟨"p", "promptBlock", none⟩,
        ⟨"o", "output", none⟩] [⟨"s", "p"⟩, ⟨"p", "o"⟩])[k]? =
      some (Artifact.mk 2 "p" "02-p.json").node_id ∧
      findNode [⟨"s", "workflowStart", none⟩, ⟨"p", "promptBlock", none⟩,
        ⟨"o", "output", none⟩] (Artifact.mk 2 "p" "02-p.json").node_id = some node ∧
      executableTypes.contains node.type = true ∧
      (Artifact.mk 2 "p" "02-p.json").step = k + 1 ∧
      (Artifact.mk 2 "p" "02-p.json").filename =
        mkFilename (k + 1) (node.label.getD (Artifact.mk 2 "p" "02-p.json").node_id) :=
  (claim_C10
    [⟨"s", "workflowStart", none⟩, ⟨"p", "promptBlock", none⟩,
      ⟨"o", "output", none⟩] [⟨"s", "p"⟩, ⟨"p", "o"⟩]
    (fun _ => Outcome.ok Val.vNull)).1
    (Artifact.mk 2 "p" "02-p.json") (by decide)

theorem updateAssoc_fresh {α : Type} (l : List (String × α)) (k : String) (a : α)
    (h : l.any (fun pr => pr.1 == k) = false) :
    updateAssoc l k a = l ++ [(k, a)] := by
  unfold updateAssoc
  rw [if_neg (by rw [h]; exact Bool.false_ne_true)]

theorem updateAssoc_twice_fresh {α : Type} (l : List (String × α)) (k : String)
    (a b : α) (h : l.any (fun pr => pr.1 == k) = false) :
    updateAssoc (updateAssoc l k a) k b = l ++ [(k, b)] := by
  rw [updateAssoc_fresh l k a h]
  unfold updateAssoc
  have hany : ((l ++ [(k, a)]).any (fun pr => pr.1 == k)) = true := by
    rw [List.any_append]
    simp
  rw [if_pos hany]
  rw [List.map_append]
  have hmapl : l.map (fun pr => if pr.1 == k then (k, b) else pr) = l := by
    have hall := List.any_eq_false.mp h
    calc l.map (fun pr => if pr.1 == k then (k, b) else pr)
        = l.map (fun pr => pr) := by
          apply List.map_congr_left
          intro pr hpr
          rw [if_neg (hall pr hpr)]
      _ = l := List.map_id _
  rw [hmapl]
  simp

theorem find?_append_key {α : Type} (l : List (String × α)) (k : String) (b : α)
    (h : ∀ pr ∈ l, ¬(pr.1 == k) = true) :
    (l ++ [(k, b)]).find? (fun pr => pr.1 == k) = some (k, b) := by
  induction l with
  | nil => simp
  | cons x t ih =>
    have hx : (x.1 == k) = false := Bool.eq_false_iff.mpr (h x (List.mem_cons_self x t))
    rw [List.cons_append, List.find?_cons, hx]
    exact ih (fun pr hpr => h pr (List.mem_cons_of_mem x hpr))

theorem runLoop_fail (nodes : List NodeJ) (env : String → Outcome)
    (v : String) (msg : String) (node : NodeJ)
    (hfind : findNode nodes v = some node)
    (hex : executableTypes.contains node.type = true)
    (herr : env v = Outcome.err msg) :
    ∀ (l1 l2 : List String) (i : Nat) (p : PState) (f : FState)
      (arts : List Artifact) (tr : List PState),
      (∀ u ∈ l1, isExecuted nodes u = true → ∃ w, env u = Outcome.ok w) →
      (l1 ++ v :: l2).Nodup →
      (∀ u ∈ l1 ++ v :: l2, p.tasks.any (fun pr => pr.1 == u) = false) →
      (p.tasks.filter (fun pr => pr.2.status == TStatus.failed)).length = 0 →
      (runLoop nodes env i (l1 ++ v :: l2) p f arts tr).failure.status =
          FStatus.failed ∧
      (runLoop nodes env i (l1 ++ v :: l2) p f arts tr).pipeline.tasks.find?
          (fun pr => pr.1 == v) =
        some (v, { node_id := v
                   node_type := node.type
                   node_label := node.label.getD v
                   status := TStatus.failed
                   error := some msg }) ∧
      (∀ u ∈ l2, (runLoop nodes env i (l1 ++ v :: l2) p f arts tr).pipeline.tasks.any
          (fun pr => pr.1 == u) = false) ∧
      ((runLoop nodes env i (l1 ++ v :: l2) p f arts tr).pipeline.tasks.filter
          (fun pr => pr.2.status == TStatus.failed)).length = 1 := by
  intro l1
  induction l1 with
  | nil =>
    intro l2 i p f arts tr hpre hnd hfresh hfail0
    simp only [List.nil_append] at *
    simp only [runLoop]
    rw [show nodes.find? (fun n => n.id == v) = some node from hfind]
    dsimp only
    rw [if_pos hex, herr]
    dsimp only
    have hfv : p.tasks.any (fun pr => pr.1 == v) = false :=
      hfresh v (List.mem_cons_self v l2)
    rw [updateAssoc_twice_fresh p.tasks v _ _ hfv]
    refine ⟨rfl, ?_, ?_, ?_⟩
    · apply find?_append_key
      exact List.any_eq_false.mp hfv
    · intro u hu
      rw [List.any_append]
      have h1 : p.tasks.any (fun pr => pr.1 == u) = false :=
        hfresh u (List.mem_cons_of_mem v hu)
      rw [h1]
      have hvu : (v == u) = false := by
        rw [List.nodup_cons] at hnd
        have : v ≠ u := fun h => hnd.1 (h ▸ hu)
        simp [this]
      simp [hvu]
    · rw [List.filter_append]
      rw [List.length_append]
      rw [hfail0]
      simp
  | cons u l1t ih =>
    intro l2 i p f arts tr hpre hnd hfresh hfail0
    rw [List.cons_append]
    simp only [runLoop]
    cases hfu : nodes.find? (fun n => n.id == u) with
    | none =>
      dsimp only
      refine ih l2 (i + 1) p f arts (tr ++ [p]) ?_ ?_ ?_ hfail0
      · intro x hx
        exact hpre x (List.mem_cons_of_mem u hx)
      · rw [List.cons_append, List.nodup_cons] at hnd
        exact hnd.2
      · intro x hx
        exact hfresh x (List.mem_cons_of_mem u hx)
    | some nodeU =>
      dsimp only
      by_cases hexu : executableTypes.contains nodeU.type = true
      · rw [if_pos hexu]
        have hisex : isExecuted nodes u = true := by
          unfold isExecuted findNode
          rw [show nodes.find? (fun n => n.id == u) = some nodeU from hfu]
          exact hexu
        obtain ⟨w, hw⟩ := hpre u (List.mem_cons_self u l1t) hisex
        rw [hw]
        dsimp only
        have hfu2 : p.tasks.any (fun pr => pr.1 == u) = false :=
          hfresh u (List.mem_cons_self u (l1t ++ v :: l2))
        rw [updateAssoc_twice_fresh p.tasks u _ _ hfu2]
        refine ih l2 (i + 1) _ _ _ _ ?_ ?_ ?_ ?_
        · intro x hx
          exact hpre x (List.mem_cons_of_mem u hx)
        · rw [List.cons_append, List.nodup_cons] at hnd
          exact hnd.2
        · intro x hx
          dsimp only
          rw [List.any_append]
          have h1 : p.tasks.any (fun pr => pr.1 == x) = false :=
            hfresh x (List.mem_cons_of_mem u hx)
          rw [h1]
          have hux : (u == x) = false := by
            rw [List.cons_append, List.nodup_cons] at hnd
            have : u ≠ x := fun h => hnd.1 (h ▸ hx)
            simp [this]
          simp [hux]
        · dsimp only
          rw [List.filter_append, List.length_append, hfail0]
          simp
      · rw [if_neg hexu]
        refine ih l2 (i + 1) p f arts (tr ++ [p]) ?_ ?_ ?_ hfail0
        · intro x hx
          exact hpre x (List.mem_cons_of_mem u hx)
        · rw [List.cons_append, List.nodup_cons] at hnd
          exact hnd.2
        · intro x hx
          exact hfresh x (List.mem_cons_of_mem u hx)

/-- Claim C2: when the first raising node of the execution order is
reached, the run aborts: the failure becomes failed, that node's task
is failed with the error message recorded, no node after it gets a task
(it is never executed), and exactly one task of the run has status
failed. -/
theorem claim_C2 (nodes : List NodeJ) (edges : List EdgeJ) (env : String → Outcome)
    (v msg : String) (l1 l2 : List String) (node : NodeJ)
    (hnd : (nodeIds nodes).Nodup)
    (hdec : getExecutionOrder nodes edges = l1 ++ v :: l2)
    (hfind : findNode nodes v = some node)
    (hex : executableTypes.contains node.type = true)
    (herr : env v = Outcome.err msg)
    (hpre : ∀ u ∈ l1, isExecuted nodes u = true → ∃ w, env u = Outcome.ok w) :
    (runPipeline nodes edges env).failure.status = FStatus.failed ∧
    (runPipeline nodes edges env).pipeline.tasks.find? (fun pr => pr.1 == v) =
      some (v, { node_id := v
                 node_type := node.type
                 node_label := node.label.getD v
                 status := TStatus.failed
                 error := some msg }) ∧
    (∀ u ∈ l2, (runPipeline nodes edges env).pipeline.tasks.any
      (fun pr => pr.1 == u) = false) ∧
    ((runPipeline nodes edges env).pipeline.tasks.filter
      (fun pr => pr.2.status == TStatus.failed)).length = 1 := by
  have hordnd : (l1 ++ v :: l2).Nodup := by
    rw [← hdec]
    exact (getExecutionOrder_final nodes edges hnd).1
  have hrp : runPipeline nodes edges env =
      runLoop nodes env 0 (l1 ++ v :: l2)
        { status := FStatus.running
          execution_order := l1 ++ v :: l2
          current_index := 0
          node_outputs := []
          tasks := [] }
        { status := FStatus.running
          current_node_id := none
          node_results := [] } []
        [{ status := FStatus.running
           execution_order := l1 ++ v :: l2
           current_index := 0
           node_outputs := []
           tasks := [] }] := by
    unfold runPipeline
    rw [hdec]
  rw [hrp]
  exact runLoop_fail nodes env v msg node hfind hex herr l1 l2 0 _ _ [] _
    hpre hordnd (fun u _ => rfl) rfl

/-- Witness for claim C2: the three-node linear graph start, prompt,
output where the prompt step's agent reports an error. -/
theorem claim_C2_witness :
    (runPipeline
      [⟨"s", "workflowStart", none⟩, ⟨"p", "promptBlock", none⟩,
        ⟨"o", "output", none⟩] [⟨"s", "p"⟩, ⟨"p", "o"⟩]
      (fun nid => if nid == "p" then Outcome.err "Agent error: boom"
        else Outcome.ok Val.vNull)).failure.status = FStatus.failed ∧
    (runPipeline
      [⟨"s", "workflowStart", none⟩, ⟨"p", "promptBlock", none⟩,
        ⟨"o", "output", none⟩] [⟨"s", "p"⟩, ⟨"p", "o"⟩]
      (fun nid => if nid == "p" then Outcome.err "Agent error: boom"
        else Outcome.ok Val.vNull)).pipeline.tasks.find? (fun pr => pr.1 == "p") =
      some ("p", { node_id := "p"
                   node_type := "promptBlock"
                   node_label := "p"
                   status := TStatus.failed
                   error := some "Agent error: boom" }) ∧
    (∀ u ∈ ["o"], (runPipeline
      [⟨"s", "workflowStart", none⟩, ⟨"p", "promptBlock", none⟩,
        ⟨"o", "output", none⟩] [⟨"s", "p"⟩, ⟨"p", "o"⟩]
      (fun nid => if nid == "p" then Outcome.err "Agent error: boom"
        else Outcome.ok Val.vNull)).pipeline.tasks.any
      (fun pr => pr.1 == u) = false) ∧
    ((runPipeline
      [⟨"s", "workflowStart", none⟩, ⟨"p", "promptBlock", none⟩,
        ⟨"o", "output", none⟩] [⟨"s", "p"⟩, ⟨"p", "o"⟩]
      (fun nid => if nid == "p" then Outcome.err "Agent error: boom"
        else Outcome.ok Val.vNull)).pipeline.tasks.filter
      (fun pr => pr.2.status == TStatus.failed)).length = 1 :=
  claim_C2
    [⟨"s", "workflowStart", none⟩, ⟨"p", "promptBlock", none⟩,
      ⟨"o", "output", none⟩] [⟨"s", "p"⟩, ⟨"p", "o"⟩]
    (fun nid => if nid == "p" then Outcome.err "Agent error: boom"
      else Outcome.ok Val.vNull)
    "p" "Agent error: boom" ["s"] ["o"] ⟨"p", "promptBlock", none⟩
    (by decide) (by decide) (by decide) (by decide) rfl
    (by
      intro u hu _
      rw [List.mem_singleton.mp hu]
      exact ⟨Val.vNull, rfl⟩)
